import Mathlib

/-!
Verification of the change-detection / patch-generation engine of the
repository (the `StateObserver` of `lib/state/observer`, exercised by
`test/state_observer_test.js`), together with two properties of the
auth plugin (`packages/auth/src/auth.ts`).

The observer implementation itself is not shipped under `src/` (only its
test is), so the engine is modelled from the specification: Observed
Values (spec section 3), the Projector with serialization hooks and cycle
guard (spec section 4.1), the Snapshot Store (4.2), the Diff Engine (4.3)
and the Patch Emitter (4.4).
-/

/-- Modelled from the spec: a Scalar Observed Value (spec section 3) — a
number, string, boolean or null.  Numbers are modelled as integers, which
covers every value appearing in the claims. -/
inductive Scalar where
  | num (n : Int)
  | str (s : String)
  | bool (b : Bool)
  | null
deriving DecidableEq, Repr

/-- Modelled from the spec: an Observed Value (spec section 3) — the
canonical projection of any input value: a Scalar, an Ordered Sequence
(projected array) or a Keyed Record (projected object, keys in a defined
enumeration order). -/
inductive OV where
  | scalar (s : Scalar)
  | seq (xs : List OV)
  | obj (fs : List (String × OV))
deriving Repr

/-- A path segment of a Patch Operation: a string key or an array index
(spec section 3). -/
inductive Seg where
  | key (k : String)
  | idx (i : Nat)
deriving DecidableEq, Repr

/-- The operation kind of a Patch Operation: add, replace or remove
(spec section 3). -/
inductive Op where
  | add | replace | remove
deriving DecidableEq, Repr

/-- Modelled from the spec: a Patch Operation (spec section 3) —
`{op, path, value}` with the value absent for `remove`. -/
structure PatchOp where
  op : Op
  path : List Seg
  value : Option OV
deriving Repr

/-- Look a key up in a Keyed Record's field list (first binding wins,
as JS property access would). -/
def lookupKey (fs : List (String × OV)) (k : String) : Option OV :=
  match fs with
  | [] => none
  | (k', v) :: rest => if k' = k then some v else lookupKey rest k

/-- Replace the value stored at a key (first occurrence), leaving the
record unchanged when the key is absent. -/
def setKey (fs : List (String × OV)) (k : String) (v : OV) : List (String × OV) :=
  match fs with
  | [] => []
  | (k', v') :: rest => if k' = k then (k', v) :: rest else (k', v') :: setKey rest k v

/-- Delete a key (first occurrence) from a Keyed Record's field list. -/
def removeKeyL (fs : List (String × OV)) (k : String) : List (String × OV) :=
  match fs with
  | [] => []
  | (k', v') :: rest => if k' = k then rest else (k', v') :: removeKeyL rest k

/-- Keys of the field list are pairwise distinct (JS objects always
satisfy this, hence so does every projected Keyed Record). -/
def noDupKeysb : List (String × OV) → Bool
  | [] => true
  | (k, _) :: rest => (lookupKey rest k).isNone && noDupKeysb rest

mutual
/-- Well-formedness of an Observed Value: every Keyed Record in the tree
has pairwise-distinct keys.  Projections of live JS objects always
satisfy this. -/
def WFb : OV → Bool
  | OV.scalar _ => true
  | OV.seq xs => WFbList xs
  | OV.obj fs => noDupKeysb fs && WFbFields fs

/-- Well-formedness of a list of Observed Values. -/
def WFbList : List OV → Bool
  | [] => true
  | x :: xs => WFb x && WFbList xs

/-- Well-formedness of the values of a field list. -/
def WFbFields : List (String × OV) → Bool
  | [] => true
  | (_, v) :: fs => WFb v && WFbFields fs
end

/-- Prefix every patch path in a list with one extra leading segment
(used when patches of a child are reported from its parent). -/
def withSeg (s : Seg) (ps : List PatchOp) : List PatchOp :=
  ps.map (fun p => { p with path := s :: p.path })

/-- Trailing `add` operations for the new elements of a longer current
sequence, at ascending indices starting at `base` (spec section 4.3). -/
def addsAsc (ys : List OV) (base : Nat) : List PatchOp :=
  match ys with
  | [] => []
  | y :: rest => ⟨Op.add, [Seg.idx base], some y⟩ :: addsAsc rest (base + 1)

/-- Trailing `remove` operations for the lost elements of a shorter
current sequence: `count` removals at descending indices
`base + count - 1, …, base` (spec sections 4.3 and 8: indices 10 then 9
when a length-11 sequence shrinks to length 9). -/
def removesDesc (count : Nat) (base : Nat) : List PatchOp :=
  match count with
  | 0 => []
  | c + 1 => ⟨Op.remove, [Seg.idx (base + c)], none⟩ :: removesDesc c base

/-- Modelled from the spec: the `add` operations a Keyed Record diff
emits for keys present only in `current`, appended after all patches for
`previous`'s keys, in `current`'s key order (spec section 4.3). -/
def addedFields (fs gs : List (String × OV)) : List PatchOp :=
  match gs with
  | [] => []
  | (k, w) :: grest =>
    (if (lookupKey fs k).isNone then [⟨Op.add, [Seg.key k], some w⟩] else [])
      ++ addedFields fs grest

mutual
/-- Modelled from the spec: the Diff Engine (spec section 4.3),
`diff previous current`, recursive and depth-first.  Equal Scalars give
no patch; a kind mismatch or unequal Scalars give a single root
`replace` with `current`'s value; Keyed Records iterate the union of
keys in `previous`'s key order with keys new to `current` appended;
Ordered Sequences compare index-by-index over the shared range and emit
trailing `add`s (ascending) or `remove`s for the length difference. -/
def diff : OV → OV → List PatchOp
  | OV.scalar a, OV.scalar b =>
    if a = b then [] else [⟨Op.replace, [], some (OV.scalar b)⟩]
  | OV.seq xs, OV.seq ys => diffSeq xs ys 0
  | OV.obj fs, OV.obj gs => diffFields fs gs ++ addedFields fs gs
  | _, cur => [⟨Op.replace, [], some cur⟩]

/-- Index-by-index comparison of two Ordered Sequences starting at index
`base`: recurse on shared positions, then trailing `add`s when `current`
is longer or trailing `remove`s when it is shorter (spec section 4.3). -/
def diffSeq : List OV → List OV → Nat → List PatchOp
  | [], ys, base => addsAsc ys base
  | xs, [], base => removesDesc xs.length base
  | x :: xs, y :: ys, base => withSeg (Seg.idx base) (diff x y) ++ diffSeq xs ys (base + 1)

/-- Iteration over `previous`'s keys in order: a key also present in
`current` contributes its recursive diff (prefixed with the key), a key
present only in `previous` contributes a `remove` (spec section 4.3). -/
def diffFields : List (String × OV) → List (String × OV) → List PatchOp
  | [], _ => []
  | (k, v) :: rest, gs =>
    (match lookupKey gs k with
     | some w => withSeg (Seg.key k) (diff v w)
     | none => [⟨Op.remove, [Seg.key k], none⟩]) ++ diffFields rest gs
end

/-- Perform one patch operation at a terminal path segment inside a
container value, JSON-Patch style: `replace`/`remove` require the
key or index to exist, `add` appends a fresh record key (or overwrites
an existing one) and inserts at a sequence index `i ≤ length`. -/
def applySeg (v : OV) (seg : Seg) (op : Op) (val : Option OV) : Option OV :=
  match v, seg, op, val with
  | OV.obj fs, Seg.key k, Op.replace, some x =>
    if (lookupKey fs k).isSome then some (OV.obj (setKey fs k x)) else none
  | OV.obj fs, Seg.key k, Op.add, some x =>
    if (lookupKey fs k).isSome then some (OV.obj (setKey fs k x))
    else some (OV.obj (fs ++ [(k, x)]))
  | OV.obj fs, Seg.key k, Op.remove, _ =>
    if (lookupKey fs k).isSome then some (OV.obj (removeKeyL fs k)) else none
  | OV.seq xs, Seg.idx i, Op.replace, some x =>
    if i < xs.length then some (OV.seq (xs.set i x)) else none
  | OV.seq xs, Seg.idx i, Op.add, some x =>
    if i ≤ xs.length then some (OV.seq (xs.insertIdx i x)) else none
  | OV.seq xs, Seg.idx i, Op.remove, _ =>
    if i < xs.length then some (OV.seq (xs.eraseIdx i)) else none
  | _, _, _, _ => none

/-- Apply one patch operation along its path: an empty path replaces the
whole document, a single segment is performed in place, a longer path
navigates into the container and writes the patched child back. -/
def applyAtPath (v : OV) (path : List Seg) (op : Op) (val : Option OV) : Option OV :=
  match path with
  | [] =>
    match op, val with
    | Op.replace, some x => some x
    | Op.add, some x => some x
    | _, _ => none
  | [seg] => applySeg v seg op val
  | seg :: s2 :: rest =>
    match v, seg with
    | OV.obj fs, Seg.key k =>
      match lookupKey fs k with
      | some child => (applyAtPath child (s2 :: rest) op val).map (fun c => OV.obj (setKey fs k c))
      | none => none
    | OV.seq xs, Seg.idx i =>
      match xs.get? i with
      | some child => (applyAtPath child (s2 :: rest) op val).map (fun c => OV.seq (xs.set i c))
      | none => none
    | _, _ => none

/-- Apply one Patch Operation to an Observed Value. -/
def applyOp (v : OV) (p : PatchOp) : Option OV :=
  applyAtPath v p.path p.op p.value

/-- Apply a patch list in order; fails if any single patch fails. -/
def applyPatches (v : OV) (ps : List PatchOp) : Option OV :=
  match ps with
  | [] => some v
  | p :: rest => (applyOp v p).bind (fun v' => applyPatches v' rest)

/-- Modelled from the spec: a Tracked Root's observer (spec sections 3,
4.2 and 4.4): it owns the most recent Observed Value of its root.  The
live root itself is kept outside the model; each `getPatches` call is
given the current projection of the live root. -/
structure StateObserver where
  snapshot : OV

/-- Construction of an observer: the initial Observed Value is captured
immediately (spec section 3, Tracked Root). -/
def StateObserver.new (current : OV) : StateObserver := ⟨current⟩

/-- Modelled from the spec: the Patch Emitter (spec section 4.4).
Diff the stored projection against the current one, then always capture
the current projection (even when the patch list is empty), and return
the patches. -/
def StateObserver.getPatches (o : StateObserver) (current : OV) :
    List PatchOp × StateObserver :=
  (diff o.snapshot current, ⟨current⟩)

/-- Render a path as the external `/`-joined string form
(spec section 3: segments joined with `/`). -/
def Seg.render : Seg → String
  | Seg.key k => k
  | Seg.idx i => toString i

/-- Render a whole patch path, e.g. `/objs/0/x`. -/
def renderPath (p : List Seg) : String :=
  p.foldl (fun acc s => acc ++ "/" ++ s.render) ""

/-- A patch operation in its externally rendered form, as the test suite
observes it: `{op, path: "/a/0/b", value}`. -/
structure RenderedPatch where
  op : Op
  path : String
  value : Option OV
deriving Repr

/-- Render a Patch Operation. -/
def PatchOp.render (p : PatchOp) : RenderedPatch :=
  ⟨p.op, renderPath p.path, p.value⟩

/-! ## Projector (spec section 4.1)

The live object graph is modelled as a heap of nodes addressed by
identity, so that back-references (cycles) are expressible.  A live
value is a scalar or a reference to a node; a node is an array, a plain
keyed record, or an object with a canonical-serialization hook whose raw
fields and hook output are both recorded. -/

/-- A live value inside the object graph: a scalar, or a reference to a
heap node (object identity). -/
inductive LiveVal where
  | scalar (s : Scalar)
  | ref (id : Nat)
deriving DecidableEq, Repr

/-- A node of the live object graph: an array-like node, a plain keyed
record, or a node exposing a canonical-serialization hook (`toJSON`).
For a hooked node both the raw fields and the hook's returned
representation are recorded; the Projector must use only the latter. -/
inductive NodeDef where
  | arr (elems : List LiveVal)
  | plain (fields : List (String × LiveVal))
  | hooked (raw : List (String × LiveVal)) (hook : List (String × LiveVal))
deriving DecidableEq, Repr

/-- A live object graph: finitely many nodes addressed by identity. -/
abbrev Graph := List (Nat × NodeDef)

/-- Find a node by identity. -/
def lookupNode (g : Graph) (id : Nat) : Option NodeDef :=
  match g with
  | [] => none
  | (id', nd) :: rest => if id' = id then some nd else lookupNode rest id

/-- Number of graph node identities not yet on the projection stack;
the termination measure of the cycle-guarded Projector. -/
def freeCount (g : Graph) (stack : List Nat) : Nat :=
  ((g.map Prod.fst).filter (fun j => decide (j ∉ stack))).length

theorem lookupNode_mem_ids {g : Graph} {id : Nat} {nd : NodeDef}
    (h : lookupNode g id = some nd) : id ∈ g.map Prod.fst := by
  induction g with
  | nil => simp [lookupNode] at h
  | cons e rest ih =>
    obtain ⟨id', nd'⟩ := e
    simp only [lookupNode] at h
    split at h
    · rename_i heq; simp [heq]
    · simpa using Or.inr (ih h)

theorem freeCount_push_lt {g : Graph} {stack : List Nat} {id : Nat}
    (hid : id ∉ stack) (hmem : id ∈ g.map Prod.fst) :
    freeCount g (id :: stack) < freeCount g stack := by
  unfold freeCount
  have hmono : ∀ (l : List Nat),
      (l.filter (fun j => decide (j ∉ id :: stack))).length
        ≤ (l.filter (fun j => decide (j ∉ stack))).length := fun l =>
    (List.monotone_filter_right l (fun a ha => by
      simp only [decide_eq_true_eq] at ha ⊢
      simp only [List.mem_cons] at ha
      exact fun hc => ha (Or.inr hc))).length_le
  revert hmem
  generalize g.map Prod.fst = l
  intro hmem
  induction l with
  | nil => simp at hmem
  | cons a l' ih =>
    rw [List.filter_cons, List.filter_cons]
    rcases List.mem_cons.mp hmem with heq | h'
    · subst heq
      have h1 : (decide (id ∉ id :: stack)) = false := by simp
      have h2 : (decide (id ∉ stack)) = true := by simpa using hid
      rw [h1, h2]
      simp only [if_false, if_true, List.length_cons]
      exact Nat.lt_succ_of_le (hmono l')
    · have hlt := ih h'
      by_cases hpa : (decide (a ∉ (id :: stack))) = true
      · have hqa : (decide (a ∉ stack)) = true := by
          simp only [decide_eq_true_eq] at hpa ⊢
          simp only [List.mem_cons] at hpa
          exact fun hc => hpa (Or.inr hc)
        rw [hpa, hqa]
        simpa using Nat.succ_lt_succ hlt
      · rw [Bool.not_eq_true] at hpa
        rw [hpa]
        by_cases hqa : (decide (a ∉ stack)) = true
        · rw [hqa]
          simp only [if_false, if_true, List.length_cons]
          exact Nat.lt_succ_of_lt hlt
        · rw [Bool.not_eq_true] at hqa
          rw [hqa]
          simpa using hlt

mutual
/-- Modelled from the spec: the Projector on a live value (spec section
4.1).  Scalars pass through; a reference whose target is already on the
active projection stack (a back-reference to an ancestor) is projected
as the empty/opaque placeholder `obj []` instead of being recursed into
(cycle guard); a dangling reference is likewise an opaque placeholder;
otherwise the referenced node is projected with its identity pushed on
the stack. -/
def projectVal (g : Graph) (stack : List Nat) : LiveVal → OV
  | LiveVal.scalar s => OV.scalar s
  | LiveVal.ref id =>
    if h : id ∈ stack then OV.obj []
    else
      match hm : lookupNode g id with
      | none => OV.obj []
      | some nd => projectNode g (id :: stack) nd
termination_by v => (freeCount g stack, sizeOf v)
decreasing_by
  exact Prod.Lex.left _ _ (freeCount_push_lt h (lookupNode_mem_ids hm))

/-- Projection of one node: arrays element-wise in index order, plain
records key-wise in enumeration order, and hooked nodes through their
hook's returned representation only — the raw fields are ignored
(spec section 4.1, hook precedence). -/
def projectNode (g : Graph) (stack : List Nat) : NodeDef → OV
  | NodeDef.arr es => OV.seq (projectList g stack es)
  | NodeDef.plain fs => OV.obj (projectFields g stack fs)
  | NodeDef.hooked _ hook => OV.obj (projectFields g stack hook)
termination_by nd => (freeCount g stack, sizeOf nd)
decreasing_by
  all_goals apply Prod.Lex.right
  all_goals simp

/-- Element-wise projection of an array's live values. -/
def projectList (g : Graph) (stack : List Nat) : List LiveVal → List OV
  | [] => []
  | v :: vs => projectVal g stack v :: projectList g stack vs
termination_by vs => (freeCount g stack, sizeOf vs)
decreasing_by
  all_goals apply Prod.Lex.right
  all_goals simp
  all_goals omega

/-- Key-wise projection of a record's fields. -/
def projectFields (g : Graph) (stack : List Nat) :
    List (String × LiveVal) → List (String × OV)
  | [] => []
  | (k, v) :: fs => (k, projectVal g stack v) :: projectFields g stack fs
termination_by fs => (freeCount g stack, sizeOf fs)
decreasing_by
  all_goals apply Prod.Lex.right
  all_goals simp
  all_goals omega
end

/-- Projection of a tracked root: project the root reference with an
empty ancestor stack. -/
def projectRoot (g : Graph) (root : Nat) : OV :=
  projectVal g [] (LiveVal.ref root)

mutual
/-- Key `k` occurs somewhere in an Observed Value as the key of a Keyed
Record field. -/
def keyOccurs (k : String) : OV → Bool
  | OV.scalar _ => false
  | OV.seq xs => keyOccursList k xs
  | OV.obj fs => keyOccursFields k fs

/-- Key occurrence inside a list of Observed Values. -/
def keyOccursList (k : String) : List OV → Bool
  | [] => false
  | x :: xs => keyOccurs k x || keyOccursList k xs

/-- Key occurrence inside a field list: as one of its own keys or inside
one of its values. -/
def keyOccursFields (k : String) : List (String × OV) → Bool
  | [] => false
  | (k', v) :: fs => decide (k' = k) || keyOccurs k v || keyOccursFields k fs
end

/-- Key `k` is mentioned by a patch: it appears as a segment of the
patch's path, or as a record key somewhere inside the patch's value. -/
def keyInPatch (k : String) (p : PatchOp) : Prop :=
  Seg.key k ∈ p.path ∨ ∃ w, p.value = some w ∧ keyOccurs k w = true

/-! ## Auth plugin models (`src/packages/auth/src/auth.ts`)

User records returned by `onFindUserByEmail` are modelled as keyed
records of Observed Values.  External collaborators (hashing, token
generation, email validation, JWT verification, the user store) are
parameters of the handler models. -/

/-- The JS `delete user.password` statement: remove the binding of a key
from a user record (JS objects bind each key at most once). -/
def deleteKey (fs : List (String × OV)) (k : String) : List (String × OV) :=
  fs.filter (fun kv => decide (kv.1 ≠ k))

/-- Outcome of a login/register request: a success JSON response
`{user, token}`, or an error response `{error}`. -/
inductive AuthResult where
  | ok (user : List (String × OV)) (token : String)
  | err (msg : String)
deriving Repr

/-- The `POST /auth/login` handler (auth.ts lines 150-168): validate the
email, find the user, compare the stored password hash with the hash of
the submitted password; on success delete `user.password` and respond
with the user and a token generated from the password-less record.  A
missing user record surfaces as a caught exception (a 401 error
response), as does a failed comparison. -/
def loginHandler (findUser : String → Option (List (String × OV)))
    (hash : String → String) (genToken : List (String × OV) → String)
    (validEmail : String → Bool) (email password : String) : AuthResult :=
  if !(validEmail email) then AuthResult.err "email_malformed"
  else
    match findUser email with
    | none => AuthResult.err "cannot_read_password_of_undefined"
    | some user =>
      match lookupKey user "password" with
      | some (OV.scalar (Scalar.str stored)) =>
        if stored = hash password then
          AuthResult.ok (deleteKey user "password")
            (genToken (deleteKey user "password"))
        else AuthResult.err "invalid_credentials"
      | _ => AuthResult.err "invalid_credentials"

/-- The `POST /auth/register` handler (auth.ts lines 173-213): validate
the email, reject an existing user, validate the password, register,
re-fetch the user record, delete `user.password` and respond with the
user and a token.  `findUserBefore`/`findUserAfter` are the user store
lookups before and after `onRegisterWithEmailAndPassword` runs. -/
def registerHandler (findUserBefore findUserAfter : String → Option (List (String × OV)))
    (genToken : List (String × OV) → String)
    (validEmail validPassword : String → Bool) (email password : String) : AuthResult :=
  if !(validEmail email) then AuthResult.err "email_malformed"
  else
    match findUserBefore email with
    | some _ => AuthResult.err "email_already_in_use"
    | none =>
      if !(validPassword password) then AuthResult.err "password_too_short"
      else
        match findUserAfter email with
        | none => AuthResult.err "cannot_delete_property_of_undefined"
        | some user =>
          AuthResult.ok (deleteKey user "password")
            (genToken (deleteKey user "password"))

/-- Where a `POST /auth/reset-password` request redirects: the success
page, or back to the form with an error message. -/
inductive ResetRedirect where
  | success
  | failure (msg : String)
deriving DecidableEq, Repr

/-- Observable outcome of one `POST /auth/reset-password` request:
the redirect, the `onResetPassword` invocation (email and hashed
password) if it happened, and the presence store contents afterward. -/
structure ResetOutcome where
  redirect : ResetRedirect
  invoked : Option (String × String)
  presence : List String
deriving Repr

/-- The `POST /auth/reset-password` handler (auth.ts lines 287-312):
verify the JWT token; if the presence store already holds the key
`"reset-password:" + token` the token was already used — redirect with
`token_already_used` without invoking `onResetPassword`; otherwise
validate the password, invoke `onResetPassword(email, hash(password))`,
and record the key in the presence store (30-minute expiry; expiry is
outside this model, the key is simply present). -/
def resetPasswordHandler (verify : String → Option String)
    (hash : String → String) (validPassword : String → Bool)
    (presence : List String) (token password : String) : ResetOutcome :=
  match verify token with
  | none => ⟨ResetRedirect.failure "invalid_token", none, presence⟩
  | some email =>
    if ("reset-password:" ++ token) ∈ presence then
      ⟨ResetRedirect.failure "token_already_used", none, presence⟩
    else if !(validPassword password) then
      ⟨ResetRedirect.failure "Password is too short.", none, presence⟩
    else
      ⟨ResetRedirect.success, some (email, hash password),
        ("reset-password:" ++ token) :: presence⟩

/-! ## Induction principle and value equivalence -/

mutual
/-- Structural induction principle for Observed Values that hands the
inductive hypothesis to every sequence element and record field value. -/
def ovInduction (P : OV → Prop)
    (hs : ∀ s, P (OV.scalar s))
    (hseq : ∀ xs, (∀ x ∈ xs, P x) → P (OV.seq xs))
    (hobj : ∀ fs, (∀ kv ∈ fs, P kv.2) → P (OV.obj fs)) :
    ∀ v, P v
  | OV.scalar s => hs s
  | OV.seq xs => hseq xs (ovIndList P hs hseq hobj xs)
  | OV.obj fs => hobj fs (ovIndFields P hs hseq hobj fs)

/-- Induction helper for lists of Observed Values. -/
def ovIndList (P : OV → Prop)
    (hs : ∀ s, P (OV.scalar s))
    (hseq : ∀ xs, (∀ x ∈ xs, P x) → P (OV.seq xs))
    (hobj : ∀ fs, (∀ kv ∈ fs, P kv.2) → P (OV.obj fs)) :
    ∀ xs : List OV, ∀ x ∈ xs, P x
  | [] => by intro x hx; exact absurd hx (List.not_mem_nil x)
  | x :: xs => by
    intro y hy
    rcases List.mem_cons.mp hy with h | h
    · exact h ▸ ovInduction P hs hseq hobj x
    · exact ovIndList P hs hseq hobj xs y h

/-- Induction helper for field lists. -/
def ovIndFields (P : OV → Prop)
    (hs : ∀ s, P (OV.scalar s))
    (hseq : ∀ xs, (∀ x ∈ xs, P x) → P (OV.seq xs))
    (hobj : ∀ fs, (∀ kv ∈ fs, P kv.2) → P (OV.obj fs)) :
    ∀ fs : List (String × OV), ∀ kv ∈ fs, P kv.2
  | [] => by intro kv hkv; exact absurd hkv (List.not_mem_nil kv)
  | kv :: fs => by
    intro kv' h
    rcases List.mem_cons.mp h with h | h
    · exact h ▸ ovInduction P hs hseq hobj kv.2
    · exact ovIndFields P hs hseq hobj fs kv' h
end

/-- Value equality of Observed Values, as `assert.deepEqual` of the test
suite observes JSON values: Scalars by value, Ordered Sequences
pointwise, Keyed Records by key set and per-key value — the storage
order of record fields is not part of a JSON value's identity. -/
inductive Eqv : OV → OV → Prop
  | scalar (s : Scalar) : Eqv (OV.scalar s) (OV.scalar s)
  | seq (xs ys : List OV) : xs.length = ys.length →
      (∀ i x y, xs.get? i = some x → ys.get? i = some y → Eqv x y) →
      Eqv (OV.seq xs) (OV.seq ys)
  | obj (fs gs : List (String × OV)) :
      (∀ k, (lookupKey fs k).isSome = (lookupKey gs k).isSome) →
      (∀ k v w, lookupKey fs k = some v → lookupKey gs k = some w → Eqv v w) →
      Eqv (OV.obj fs) (OV.obj gs)

/-- A patch whose path starts with the record key `k` (the key the patch
belongs to when the diff of a Keyed Record is inspected). -/
def headKeyIs (k : String) (p : PatchOp) : Prop :=
  ∃ rest, p.path = Seg.key k :: rest

/-- Shorthand for an integer Scalar Observed Value. -/
def ovNum (n : Int) : OV := OV.scalar (Scalar.num n)

/-- The tracked state of the concrete diff scenario (spec section 8):
`{string: "Hello world", array: [1..10], objs: [{hp:100,x:0,y:0}],
boolean: true}`. -/
def c2Initial : OV :=
  OV.obj [("string", OV.scalar (Scalar.str "Hello world")),
          ("array", OV.seq [ovNum 1, ovNum 2, ovNum 3, ovNum 4, ovNum 5,
                            ovNum 6, ovNum 7, ovNum 8, ovNum 9, ovNum 10]),
          ("objs", OV.seq [OV.obj [("hp", ovNum 100), ("x", ovNum 0), ("y", ovNum 0)]]),
          ("boolean", OV.scalar (Scalar.bool true))]

/-- The same state after `objs[0].x = 100` and appending
`{hp:80,x:100,y:200}` to `objs`. -/
def c2Mutated : OV :=
  OV.obj [("string", OV.scalar (Scalar.str "Hello world")),
          ("array", OV.seq [ovNum 1, ovNum 2, ovNum 3, ovNum 4, ovNum 5,
                            ovNum 6, ovNum 7, ovNum 8, ovNum 9, ovNum 10]),
          ("objs", OV.seq [OV.obj [("hp", ovNum 100), ("x", ovNum 100), ("y", ovNum 0)],
                           OV.obj [("hp", ovNum 80), ("x", ovNum 100), ("y", ovNum 200)]]),
          ("boolean", OV.scalar (Scalar.bool true))]

/-- A live graph with a back-reference cycle and no serialization hook:
node 0 holds a child reference to node 1, and node 1 holds a parent
back-reference to node 0 (as `ChildObject.parent` does in the test
suite). -/
def cyclicG : Graph :=
  [(0, NodeDef.plain [("name", LiveVal.scalar (Scalar.str "root")),
                      ("child", LiveVal.ref 1)]),
   (1, NodeDef.plain [("parent", LiveVal.ref 0),
                      ("hp", LiveVal.scalar (Scalar.num 100))])]

/-- A one-node graph whose root exposes a serialization hook: the raw
field `secret` (with a self back-reference) is omitted by the hook, which
exposes only `hp = 1`. -/
def hookedG1 : Graph :=
  [(0, NodeDef.hooked
        [("secret", LiveVal.ref 0), ("hp", LiveVal.scalar (Scalar.num 1))]
        [("hp", LiveVal.scalar (Scalar.num 1))])]

/-- The same hooked graph after mutating `hp` to 2. -/
def hookedG2 : Graph :=
  [(0, NodeDef.hooked
        [("secret", LiveVal.ref 0), ("hp", LiveVal.scalar (Scalar.num 2))]
        [("hp", LiveVal.scalar (Scalar.num 2))])]

/-! ## Record field-list lemmas -/

theorem lookupKey_mem {fs : List (String × OV)} {k : String} {v : OV}
    (h : lookupKey fs k = some v) : (k, v) ∈ fs := by
  induction fs with
  | nil => simp [lookupKey] at h
  | cons kv rest ih =>
    obtain ⟨k', v'⟩ := kv
    simp only [lookupKey] at h
    split at h
    · rename_i heq; cases h; cases heq; exact List.mem_cons_self _ _
    · exact List.mem_cons_of_mem _ (ih h)

theorem mem_lookupKey_isSome {fs : List (String × OV)} {k : String} {v : OV}
    (h : (k, v) ∈ fs) : (lookupKey fs k).isSome = true := by
  induction fs with
  | nil => simp at h
  | cons kv rest ih =>
    obtain ⟨k', v'⟩ := kv
    rcases List.mem_cons.mp h with heq | hmem
    · cases heq; simp [lookupKey]
    · simp only [lookupKey]
      split
      · simp
      · exact ih hmem

theorem lookupKey_isSome_iff {fs : List (String × OV)} {k : String} :
    (lookupKey fs k).isSome = true ↔ k ∈ fs.map Prod.fst := by
  induction fs with
  | nil => simp [lookupKey]
  | cons kv rest ih =>
    obtain ⟨k', v'⟩ := kv
    simp only [lookupKey, List.map_cons, List.mem_cons]
    split
    · rename_i heq; simp [heq]
    · rename_i hne
      rw [ih]
      constructor
      · exact Or.inr
      · rintro (heq | hmem)
        · exact absurd heq.symm hne
        · exact hmem

theorem noDupKeysb_iff {fs : List (String × OV)} :
    noDupKeysb fs = true ↔ (fs.map Prod.fst).Nodup := by
  induction fs with
  | nil => simp [noDupKeysb]
  | cons kv rest ih =>
    obtain ⟨k, v⟩ := kv
    simp only [noDupKeysb, Bool.and_eq_true, List.map_cons, List.nodup_cons]
    rw [ih, Option.isNone_iff_eq_none]
    constructor
    · rintro ⟨h1, h2⟩
      refine ⟨fun hmem => ?_, h2⟩
      have := lookupKey_isSome_iff.mpr hmem
      rw [h1] at this
      simp at this
    · rintro ⟨h1, h2⟩
      refine ⟨?_, h2⟩
      by_cases hcase : (lookupKey rest k).isSome = true
      · exact absurd (lookupKey_isSome_iff.mp hcase) h1
      · simpa [Option.isNone_iff_eq_none] using hcase

theorem lookupKey_of_nodup_mem {fs : List (String × OV)} {k : String} {v : OV}
    (hnd : noDupKeysb fs = true) (h : (k, v) ∈ fs) : lookupKey fs k = some v := by
  induction fs with
  | nil => simp at h
  | cons kv rest ih =>
    obtain ⟨k', v'⟩ := kv
    simp only [noDupKeysb, Bool.and_eq_true] at hnd
    rcases List.mem_cons.mp h with heq | hmem
    · cases heq; simp [lookupKey]
    · simp only [lookupKey]
      split
      · rename_i heq
        subst heq
        have := mem_lookupKey_isSome hmem
        rw [Option.isNone_iff_eq_none] at hnd
        rw [hnd.1] at this
        simp at this
      · exact ih hnd.2 hmem

theorem lookupKey_setKey_self {fs : List (String × OV)} {k : String} {x : OV}
    (h : (lookupKey fs k).isSome = true) :
    lookupKey (setKey fs k x) k = some x := by
  induction fs with
  | nil => simp [lookupKey] at h
  | cons kv rest ih =>
    obtain ⟨k', v'⟩ := kv
    simp only [lookupKey, setKey] at h ⊢
    split
    · rename_i heq; simp [lookupKey, heq]
    · rename_i hne
      simp only [lookupKey, if_neg hne]
      exact ih (by simpa [if_neg hne] using h)

theorem lookupKey_setKey_ne {fs : List (String × OV)} {k k' : String} {x : OV}
    (h : k' ≠ k) : lookupKey (setKey fs k x) k' = lookupKey fs k' := by
  induction fs with
  | nil => simp [lookupKey, setKey]
  | cons kv rest ih =>
    obtain ⟨k'', v''⟩ := kv
    simp only [setKey]
    split
    · rename_i heq
      subst heq
      simp only [lookupKey]
      rw [if_neg (fun hc => h hc.symm), if_neg (fun hc => h hc.symm)]
    · simp only [lookupKey]
      split
      · rfl
      · exact ih

theorem keys_setKey {fs : List (String × OV)} {k : String} {x : OV} :
    (setKey fs k x).map Prod.fst = fs.map Prod.fst := by
  induction fs with
  | nil => simp [setKey]
  | cons kv rest ih =>
    obtain ⟨k', v'⟩ := kv
    simp only [setKey]
    split
    · simp
    · simp [ih]

theorem lookupKey_setKey_isSome {fs : List (String × OV)} {k k' : String} {x : OV} :
    (lookupKey (setKey fs k x) k').isSome = (lookupKey fs k').isSome := by
  by_cases hmem : k' ∈ fs.map Prod.fst
  · have h1 : (lookupKey (setKey fs k x) k').isSome = true :=
      lookupKey_isSome_iff.mpr (by rw [keys_setKey]; exact hmem)
    have h2 := lookupKey_isSome_iff.mpr hmem
    rw [h1, h2]
  · have h1 : ¬ (lookupKey (setKey fs k x) k').isSome = true := fun hc =>
      hmem (by
        have := lookupKey_isSome_iff.mp hc
        rwa [keys_setKey] at this)
    have h2 : ¬ (lookupKey fs k').isSome = true := fun hc =>
      hmem (lookupKey_isSome_iff.mp hc)
    rw [Bool.not_eq_true] at h1 h2
    rw [h1, h2]

theorem setKey_setKey {fs : List (String × OV)} {k : String} {x y : OV} :
    setKey (setKey fs k x) k y = setKey fs k y := by
  induction fs with
  | nil => simp [setKey]
  | cons kv rest ih =>
    obtain ⟨k', v'⟩ := kv
    simp only [setKey]
    split
    · rename_i heq; simp [setKey, heq]
    · rename_i hne; simp [setKey, if_neg hne, ih]

theorem setKey_lookup_self {fs : List (String × OV)} {k : String} {v : OV}
    (h : lookupKey fs k = some v) : setKey fs k v = fs := by
  induction fs with
  | nil => simp [setKey]
  | cons kv rest ih =>
    obtain ⟨k', v'⟩ := kv
    simp only [lookupKey] at h
    simp only [setKey]
    split
    · rename_i heq
      rw [if_pos heq] at h
      cases h
      rfl
    · rename_i hne
      rw [if_neg hne] at h
      rw [ih h]

theorem removeKeyL_sublist (fs : List (String × OV)) (k : String) :
    List.Sublist (removeKeyL fs k) fs := by
  induction fs with
  | nil => simp [removeKeyL]
  | cons kv rest ih =>
    obtain ⟨k', v'⟩ := kv
    simp only [removeKeyL]
    split
    · exact List.sublist_cons_self _ _
    · exact ih.cons_cons _

theorem lookupKey_removeKeyL_ne {fs : List (String × OV)} {k k' : String}
    (h : k' ≠ k) : lookupKey (removeKeyL fs k) k' = lookupKey fs k' := by
  induction fs with
  | nil => simp [removeKeyL]
  | cons kv rest ih =>
    obtain ⟨k'', v''⟩ := kv
    simp only [removeKeyL]
    split
    · rename_i heq
      subst heq
      simp only [lookupKey]
      rw [if_neg (fun hc => h hc.symm)]
    · simp only [lookupKey]
      split
      · rfl
      · exact ih

theorem lookupKey_removeKeyL_self {fs : List (String × OV)} {k : String}
    (hnd : noDupKeysb fs = true) : lookupKey (removeKeyL fs k) k = none := by
  induction fs with
  | nil => simp [removeKeyL, lookupKey]
  | cons kv rest ih =>
    obtain ⟨k', v'⟩ := kv
    simp only [noDupKeysb, Bool.and_eq_true, Option.isNone_iff_eq_none] at hnd
    simp only [removeKeyL]
    split
    · rename_i heq
      subst heq
      exact hnd.1
    · rename_i hne
      simp only [lookupKey, if_neg hne]
      exact ih hnd.2

theorem noDupKeysb_setKey {fs : List (String × OV)} {k : String} {x : OV}
    (h : noDupKeysb fs = true) : noDupKeysb (setKey fs k x) = true := by
  rw [noDupKeysb_iff] at h ⊢
  rwa [keys_setKey]

theorem noDupKeysb_removeKeyL {fs : List (String × OV)} {k : String}
    (h : noDupKeysb fs = true) : noDupKeysb (removeKeyL fs k) = true := by
  rw [noDupKeysb_iff] at h ⊢
  exact h.sublist (List.Sublist.map Prod.fst (removeKeyL_sublist fs k))

theorem lookupKey_append_some {fs gs : List (String × OV)} {k : String} {v : OV}
    (h : lookupKey fs k = some v) : lookupKey (fs ++ gs) k = some v := by
  induction fs with
  | nil => simp [lookupKey] at h
  | cons kv rest ih =>
    obtain ⟨k', v'⟩ := kv
    simp only [lookupKey, List.cons_append] at h ⊢
    split
    · rwa [if_pos (by assumption)] at h
    · rename_i hne
      rw [if_neg hne] at h
      exact ih h

theorem lookupKey_append_none {fs gs : List (String × OV)} {k : String}
    (h : lookupKey fs k = none) : lookupKey (fs ++ gs) k = lookupKey gs k := by
  induction fs with
  | nil => simp
  | cons kv rest ih =>
    obtain ⟨k', v'⟩ := kv
    simp only [lookupKey, List.cons_append] at h ⊢
    split
    · rename_i heq
      rw [if_pos heq] at h
      cases h
    · rename_i hne
      rw [if_neg hne] at h
      exact ih h

theorem lookupKey_deleteKey_self {fs : List (String × OV)} {k : String} :
    lookupKey (deleteKey fs k) k = none := by
  induction fs with
  | nil => simp [deleteKey, lookupKey]
  | cons kv rest ih =>
    obtain ⟨k', v'⟩ := kv
    simp only [deleteKey, List.filter_cons]
    split
    · rename_i hcond
      simp only [decide_eq_true_eq] at hcond
      simp only [lookupKey, if_neg hcond]
      exact ih
    · exact ih

/-! ## Well-formedness elimination lemmas -/

theorem WFb_obj_nodup {fs : List (String × OV)} (h : WFb (OV.obj fs) = true) :
    noDupKeysb fs = true := by
  rw [WFb] at h
  simp only [Bool.and_eq_true] at h
  exact h.1

theorem WFb_obj_fields {fs : List (String × OV)} (h : WFb (OV.obj fs) = true) :
    WFbFields fs = true := by
  rw [WFb] at h
  simp only [Bool.and_eq_true] at h
  exact h.2

theorem WFbFields_mem {fs : List (String × OV)} {k : String} {v : OV}
    (h : WFbFields fs = true) (hmem : (k, v) ∈ fs) : WFb v = true := by
  induction fs with
  | nil => simp at hmem
  | cons kv rest ih =>
    obtain ⟨k', v'⟩ := kv
    rw [WFbFields, Bool.and_eq_true] at h
    rcases List.mem_cons.mp hmem with heq | hmem'
    · cases heq; exact h.1
    · exact ih h.2 hmem'

theorem WFbList_mem {xs : List OV} {x : OV}
    (h : WFbList xs = true) (hmem : x ∈ xs) : WFb x = true := by
  induction xs with
  | nil => simp at hmem
  | cons y rest ih =>
    rw [WFbList, Bool.and_eq_true] at h
    rcases List.mem_cons.mp hmem with heq | hmem'
    · cases heq; exact h.1
    · exact ih h.2 hmem'

theorem WFb_seq_list {xs : List OV} (h : WFb (OV.seq xs) = true) :
    WFbList xs = true := by
  rwa [WFb] at h

/-! ## Generic list index lemmas -/

theorem get?_append_len {α : Type} (pre : List α) (x : α) (xs : List α) :
    (pre ++ x :: xs).get? pre.length = some x := by
  induction pre with
  | nil => rfl
  | cons a rest ih => simpa using ih

theorem set_append_len {α : Type} (pre : List α) (x y : α) (xs : List α) :
    (pre ++ x :: xs).set pre.length y = pre ++ y :: xs := by
  induction pre with
  | nil => rfl
  | cons a rest ih => simpa using ih

theorem set_get?_self {α : Type} :
    ∀ {l : List α} {i : Nat} {x : α}, l.get? i = some x → l.set i x = l := by
  intro l
  induction l with
  | nil => intro i x h; simp at h
  | cons a rest ih =>
    intro i x h
    match i with
    | 0 => simp at h; simp [h]
    | n + 1 =>
      simp only [List.get?] at h
      simp [ih h]

theorem eraseIdx_append_plus {α : Type} (pre : List α) (l : List α) (i : Nat) :
    (pre ++ l).eraseIdx (pre.length + i) = pre ++ l.eraseIdx i := by
  induction pre with
  | nil => simp
  | cons a rest ih =>
    simp only [List.cons_append, List.length_cons]
    have : rest.length + 1 + i = (rest.length + i) + 1 := by omega
    rw [this, List.eraseIdx_cons_succ, ih]

theorem get?_some_lt {α : Type} {l : List α} {i : Nat} {x : α}
    (h : l.get? i = some x) : i < l.length := by
  by_contra hc
  rw [List.get?_eq_none.mpr (by omega)] at h
  cases h

/-! ## Patch application structure lemmas -/

theorem applyPatches_append (v : OV) (ps qs : List PatchOp) :
    applyPatches v (ps ++ qs)
      = (applyPatches v ps).bind (fun w => applyPatches w qs) := by
  induction ps generalizing v with
  | nil => rfl
  | cons p rest ih =>
    simp only [List.cons_append, applyPatches]
    cases applyOp v p with
    | none => rfl
    | some v' => simp [ih v']

theorem mem_withSeg {s : Seg} {ps : List PatchOp} {p : PatchOp}
    (h : p ∈ withSeg s ps) :
    ∃ q ∈ ps, p.op = q.op ∧ p.path = s :: q.path ∧ p.value = q.value := by
  rw [withSeg, List.mem_map] at h
  obtain ⟨q, hq, heq⟩ := h
  cases heq
  exact ⟨q, hq, rfl, rfl, rfl⟩

theorem mem_addsAsc {ys : List OV} {base : Nat} {p : PatchOp} :
    p ∈ addsAsc ys base →
    ∃ i y, y ∈ ys ∧ p = ⟨Op.add, [Seg.idx i], some y⟩ := by
  induction ys generalizing base with
  | nil => intro h; simp [addsAsc] at h
  | cons y rest ih =>
    intro h
    rw [addsAsc] at h
    rcases List.mem_cons.mp h with heq | hmem
    · exact ⟨base, y, List.mem_cons_self _ _, heq⟩
    · obtain ⟨i, y', hy', heq⟩ := ih hmem
      exact ⟨i, y', List.mem_cons_of_mem _ hy', heq⟩

theorem mem_removesDesc {c base : Nat} {p : PatchOp} :
    p ∈ removesDesc c base → ∃ i, p = ⟨Op.remove, [Seg.idx i], none⟩ := by
  induction c with
  | zero => intro h; simp [removesDesc] at h
  | succ c ih =>
    intro h
    rw [removesDesc] at h
    rcases List.mem_cons.mp h with heq | hmem
    · exact ⟨base + c, heq⟩
    · exact ih hmem

theorem mem_diffSeq_path_ne_nil {xs ys : List OV} {base : Nat} {p : PatchOp}
    (h : p ∈ diffSeq xs ys base) : p.path ≠ [] := by
  induction xs generalizing ys base with
  | nil =>
    rw [diffSeq] at h
    obtain ⟨i, y, _, heq⟩ := mem_addsAsc h
    simp [heq]
  | cons x xs ih =>
    cases ys with
    | nil =>
      simp only [diffSeq] at h
      obtain ⟨i, heq⟩ := mem_removesDesc h
      simp [heq]
    | cons y ys =>
      rw [diffSeq] at h
      rcases List.mem_append.mp h with hmem | hmem
      · obtain ⟨q, _, _, hpath, _⟩ := mem_withSeg hmem
        simp [hpath]
      · exact ih hmem

theorem mem_diffFields_shape {fs gs : List (String × OV)} {p : PatchOp}
    (h : p ∈ diffFields fs gs) :
    ∃ k rest', p.path = Seg.key k :: rest' ∧ k ∈ fs.map Prod.fst := by
  induction fs with
  | nil => rw [diffFields] at h; simp at h
  | cons kv fs ih =>
    obtain ⟨k, v⟩ := kv
    rw [diffFields] at h
    rcases List.mem_append.mp h with hmem | hmem
    · cases hlk : lookupKey gs k with
      | some w =>
        rw [hlk] at hmem
        obtain ⟨q, _, _, hpath, _⟩ := mem_withSeg hmem
        exact ⟨k, q.path, hpath, by simp⟩
      | none =>
        rw [hlk] at hmem
        rcases List.mem_singleton.mp hmem with heq
        exact ⟨k, [], by simp [heq], by simp⟩
    · obtain ⟨k', rest', hpath, hmem'⟩ := ih hmem
      exact ⟨k', rest', hpath, by simp [hmem']⟩

theorem mem_addedFields {fs gs : List (String × OV)} {p : PatchOp}
    (h : p ∈ addedFields fs gs) :
    ∃ k w, p = ⟨Op.add, [Seg.key k], some w⟩
      ∧ lookupKey fs k = none ∧ (k, w) ∈ gs := by
  induction gs with
  | nil => rw [addedFields] at h; simp at h
  | cons kw grest ih =>
    obtain ⟨k, w⟩ := kw
    rw [addedFields] at h
    rcases List.mem_append.mp h with hmem | hmem
    · split at hmem
      · rename_i hcond
        rcases List.mem_singleton.mp hmem with heq
        rw [Option.isNone_iff_eq_none] at hcond
        exact ⟨k, w, heq, hcond, List.mem_cons_self _ _⟩
      · simp at hmem
    · obtain ⟨k', w', heq, hnone, hmem'⟩ := ih hmem
      exact ⟨k', w', heq, hnone, List.mem_cons_of_mem _ hmem'⟩

theorem diff_path_nil {u v : OV} {p : PatchOp}
    (h : p ∈ diff u v) (hnil : p.path = []) :
    p.op = Op.replace ∧ p.value = some v := by
  match u, v with
  | OV.scalar a, OV.scalar b =>
    rw [diff] at h
    split at h
    · simp at h
    · rcases List.mem_singleton.mp h with heq
      rw [heq]
      exact ⟨rfl, rfl⟩
  | OV.seq xs, OV.seq ys =>
    rw [diff] at h
    exact absurd hnil (mem_diffSeq_path_ne_nil h)
  | OV.obj fs, OV.obj gs =>
    rw [diff] at h
    rcases List.mem_append.mp h with hmem | hmem
    · obtain ⟨k, rest', hpath, _⟩ := mem_diffFields_shape hmem
      rw [hpath] at hnil
      cases hnil
    · obtain ⟨k, w, heq, _, _⟩ := mem_addedFields hmem
      rw [heq] at hnil
      cases hnil
  | OV.scalar a, OV.seq ys =>
    simp only [diff] at h
    rcases List.mem_singleton.mp h with heq
    rw [heq]; exact ⟨rfl, rfl⟩
  | OV.scalar a, OV.obj gs =>
    simp only [diff] at h
    rcases List.mem_singleton.mp h with heq
    rw [heq]; exact ⟨rfl, rfl⟩
  | OV.seq xs, OV.scalar b =>
    simp only [diff] at h
    rcases List.mem_singleton.mp h with heq
    rw [heq]; exact ⟨rfl, rfl⟩
  | OV.seq xs, OV.obj gs =>
    simp only [diff] at h
    rcases List.mem_singleton.mp h with heq
    rw [heq]; exact ⟨rfl, rfl⟩
  | OV.obj fs, OV.scalar b =>
    simp only [diff] at h
    rcases List.mem_singleton.mp h with heq
    rw [heq]; exact ⟨rfl, rfl⟩
  | OV.obj fs, OV.seq ys =>
    simp only [diff] at h
    rcases List.mem_singleton.mp h with heq
    rw [heq]; exact ⟨rfl, rfl⟩

theorem diff_add_path_ne_nil {u v : OV} {p : PatchOp}
    (h : p ∈ diff u v) (hop : p.op = Op.add) : p.path ≠ [] := by
  intro hnil
  have := (diff_path_nil h hnil).1
  rw [hop] at this
  cases this

theorem applyPatches_withSeg_key {ps : List PatchOp} :
    ∀ {fs : List (String × OV)} {k : String} {v v' : OV},
    lookupKey fs k = some v → applyPatches v ps = some v' →
    applyPatches (OV.obj fs) (withSeg (Seg.key k) ps)
      = some (OV.obj (setKey fs k v')) := by
  induction ps with
  | nil =>
    intro fs k v v' hlk happ
    rw [applyPatches] at happ
    cases happ
    simp only [withSeg, List.map_nil, applyPatches]
    rw [setKey_lookup_self hlk]
  | cons p rest ih =>
    intro fs k v v' hlk happ
    rw [applyPatches] at happ
    cases h1 : applyOp v p with
    | none => rw [h1] at happ; cases happ
    | some v1 =>
      rw [h1] at happ
      have happ2 : applyPatches v1 rest = some v' := happ
      have hstep : applyOp (OV.obj fs) { p with path := Seg.key k :: p.path }
          = some (OV.obj (setKey fs k v1)) := by
        rw [applyOp] at h1
        cases hp : p.path with
        | nil =>
          rw [hp] at h1
          cases hop : p.op with
          | replace =>
            rw [hop] at h1
            cases hval : p.value with
            | none =>
              rw [hval] at h1
              simp only [applyAtPath] at h1
              cases h1
            | some x =>
              rw [hval] at h1
              simp only [applyAtPath] at h1
              cases h1
              simp [applyOp, applyAtPath, applySeg, hp, hop, hval, hlk]
          | add =>
            rw [hop] at h1
            cases hval : p.value with
            | none =>
              rw [hval] at h1
              simp only [applyAtPath] at h1
              cases h1
            | some x =>
              rw [hval] at h1
              simp only [applyAtPath] at h1
              cases h1
              simp [applyOp, applyAtPath, applySeg, hp, hop, hval, hlk]
          | remove =>
            rw [hop] at h1
            cases hval : p.value <;> rw [hval] at h1 <;>
              simp only [applyAtPath] at h1 <;> cases h1
        | cons s2 t =>
          rw [hp] at h1
          simp [applyOp, applyAtPath, hp, hlk, h1]
      have hlk2 : lookupKey (setKey fs k v1) k = some v1 :=
        lookupKey_setKey_self (by rw [hlk]; rfl)
      show applyPatches (OV.obj fs)
          ({ p with path := Seg.key k :: p.path } :: withSeg (Seg.key k) rest)
        = some (OV.obj (setKey fs k v'))
      rw [applyPatches, hstep]
      show applyPatches (OV.obj (setKey fs k v1)) (withSeg (Seg.key k) rest) = _
      rw [ih hlk2 happ2, setKey_setKey]

theorem applyPatches_withSeg_idx {ps : List PatchOp} :
    ∀ {xs : List OV} {i : Nat} {x x' : OV},
    xs.get? i = some x →
    (∀ p ∈ ps, p.op = Op.add → p.path ≠ []) →
    applyPatches x ps = some x' →
    applyPatches (OV.seq xs) (withSeg (Seg.idx i) ps)
      = some (OV.seq (xs.set i x')) := by
  induction ps with
  | nil =>
    intro xs i x x' hget hnra happ
    rw [applyPatches] at happ
    cases happ
    simp only [withSeg, List.map_nil, applyPatches]
    rw [set_get?_self hget]
  | cons p rest ih =>
    intro xs i x x' hget hnra happ
    have hlt : i < xs.length := get?_some_lt hget
    rw [applyPatches] at happ
    cases h1 : applyOp x p with
    | none => rw [h1] at happ; cases happ
    | some v1 =>
      rw [h1] at happ
      have happ2 : applyPatches v1 rest = some x' := happ
      have hstep : applyOp (OV.seq xs) { p with path := Seg.idx i :: p.path }
          = some (OV.seq (xs.set i v1)) := by
        rw [applyOp] at h1
        cases hp : p.path with
        | nil =>
          rw [hp] at h1
          cases hop : p.op with
          | replace =>
            rw [hop] at h1
            cases hval : p.value with
            | none =>
              rw [hval] at h1
              simp only [applyAtPath] at h1
              cases h1
            | some y =>
              rw [hval] at h1
              simp only [applyAtPath] at h1
              cases h1
              simp [applyOp, applyAtPath, applySeg, hp, hop, hval, hlt]
          | add =>
            exact absurd hp (hnra p (List.mem_cons_self _ _) hop)
          | remove =>
            rw [hop] at h1
            cases hval : p.value <;> rw [hval] at h1 <;>
              simp only [applyAtPath] at h1 <;> cases h1
        | cons s2 t =>
          rw [hp] at h1
          have hget' : xs[i]? = some x := by
            rw [← List.get?_eq_getElem?]; exact hget
          simp [applyOp, applyAtPath, hp, hget', h1]
      have hget2 : (xs.set i v1).get? i = some v1 := by
        rw [List.get?_eq_getElem?]
        exact List.getElem?_set_eq_of_lt _ (by simpa using hlt)
      have hnra2 : ∀ p ∈ rest, p.op = Op.add → p.path ≠ [] :=
        fun q hq => hnra q (List.mem_cons_of_mem _ hq)
      show applyPatches (OV.seq xs)
          ({ p with path := Seg.idx i :: p.path } :: withSeg (Seg.idx i) rest)
        = some (OV.seq (xs.set i x'))
      rw [applyPatches, hstep]
      show applyPatches (OV.seq (xs.set i v1)) (withSeg (Seg.idx i) rest) = _
      rw [ih hget2 hnra2 happ2, List.set_set]

theorem Eqv.refl : ∀ v : OV, Eqv v v := by
  intro v
  induction v using ovInduction with
  | hs s => exact Eqv.scalar s
  | hseq xs ih =>
    exact Eqv.seq xs xs rfl (fun i x y hx hy => by
      rw [hx] at hy; cases hy; exact ih x (List.get?_mem hx))
  | hobj fs ih =>
    exact Eqv.obj fs fs (fun k => rfl) (fun k v w hv hw => by
      rw [hv] at hw; cases hw; exact ih (k, v) (lookupKey_mem hv))

theorem applyPatches_addsAsc :
    ∀ (ys pre : List OV),
    applyPatches (OV.seq pre) (addsAsc ys pre.length)
      = some (OV.seq (pre ++ ys)) := by
  intro ys
  induction ys with
  | nil => intro pre; simp [addsAsc, applyPatches]
  | cons y rest ih =>
    intro pre
    rw [addsAsc, applyPatches]
    have hop : applyOp (OV.seq pre) ⟨Op.add, [Seg.idx pre.length], some y⟩
        = some (OV.seq (pre ++ [y])) := by
      simp [applyOp, applyAtPath, applySeg]
    rw [hop]
    show applyPatches (OV.seq (pre ++ [y])) (addsAsc rest (pre.length + 1))
      = some (OV.seq (pre ++ y :: rest))
    have hlen : pre.length + 1 = (pre ++ [y]).length := by simp
    rw [hlen, ih (pre ++ [y])]
    simp

theorem applyPatches_removesDesc :
    ∀ (xs pre : List OV),
    applyPatches (OV.seq (pre ++ xs)) (removesDesc xs.length pre.length)
      = some (OV.seq pre) := by
  intro xs
  induction xs using List.reverseRecOn with
  | nil => intro pre; simp [removesDesc, applyPatches]
  | append_singleton l a ih =>
    intro pre
    simp only [List.length_append, List.length_singleton]
    rw [removesDesc, applyPatches]
    have hop : applyOp (OV.seq (pre ++ (l ++ [a])))
        ⟨Op.remove, [Seg.idx (pre.length + l.length)], none⟩
        = some (OV.seq (pre ++ l)) := by
      have herase : (pre ++ (l ++ [a])).eraseIdx (pre.length + l.length)
          = pre ++ l := by
        rw [← List.append_assoc]
        have h0 : pre.length + l.length = (pre ++ l).length + 0 := by simp
        rw [h0, eraseIdx_append_plus]
        simp [List.eraseIdx]
      have hlt : pre.length + l.length < (pre ++ (l ++ [a])).length := by
        simp
      simp [applyOp, applyAtPath, applySeg, hlt, herase]
    rw [hop]
    show applyPatches (OV.seq (pre ++ l)) (removesDesc l.length pre.length)
      = some (OV.seq pre)
    exact ih pre

theorem applyPatches_diffFields :
    ∀ (fs gs hs : List (String × OV)),
    noDupKeysb fs = true → noDupKeysb hs = true →
    WFbFields fs = true → WFbFields gs = true →
    (∀ kv ∈ fs, lookupKey hs kv.1 = some kv.2) →
    (∀ kv ∈ fs, ∀ cur, WFb kv.2 = true → WFb cur = true →
        ∃ r, applyPatches kv.2 (diff kv.2 cur) = some r ∧ Eqv r cur) →
    ∃ hs', applyPatches (OV.obj hs) (diffFields fs gs) = some (OV.obj hs')
      ∧ noDupKeysb hs' = true
      ∧ (∀ k, lookupKey fs k = none → lookupKey hs' k = lookupKey hs k)
      ∧ (∀ k v, lookupKey fs k = some v →
          (lookupKey gs k = none → lookupKey hs' k = none)
          ∧ (∀ w, lookupKey gs k = some w →
              ∃ v', lookupKey hs' k = some v' ∧ Eqv v' w)) := by
  intro fs
  induction fs with
  | nil =>
    intro gs hs _ hndhs _ _ _ _
    refine ⟨hs, by rw [diffFields, applyPatches], hndhs, fun k _ => rfl, ?_⟩
    intro k v hk
    rw [lookupKey] at hk
    cases hk
  | cons kv fs' ih =>
    obtain ⟨k, v⟩ := kv
    intro gs hs hndfs hndhs hwffs hwfgs hmem hIH
    rw [noDupKeysb] at hndfs
    simp only [Bool.and_eq_true, Option.isNone_iff_eq_none] at hndfs
    obtain ⟨hkfs', hndfs'⟩ := hndfs
    rw [WFbFields] at hwffs
    simp only [Bool.and_eq_true] at hwffs
    obtain ⟨hwfv, hwffs'⟩ := hwffs
    have hlkhs : lookupKey hs k = some v := hmem (k, v) (List.mem_cons_self _ _)
    have hne : ∀ kv' ∈ fs', kv'.1 ≠ k := by
      intro kv' hkv' heq
      have hmm : (kv'.1, kv'.2) ∈ fs' := by simpa using hkv'
      rw [heq] at hmm
      have := mem_lookupKey_isSome hmm
      rw [hkfs'] at this
      cases this
    have hIH' : ∀ kv' ∈ fs', ∀ cur, WFb kv'.2 = true → WFb cur = true →
        ∃ r, applyPatches kv'.2 (diff kv'.2 cur) = some r ∧ Eqv r cur :=
      fun kv' h' => hIH kv' (List.mem_cons_of_mem _ h')
    have hmemtail : ∀ kv' ∈ fs', lookupKey hs kv'.1 = some kv'.2 :=
      fun kv' h' => hmem kv' (List.mem_cons_of_mem _ h')
    cases hgs : lookupKey gs k with
    | some w =>
      have hwfw : WFb w = true := WFbFields_mem hwfgs (lookupKey_mem hgs)
      obtain ⟨v1, happv, heqv⟩ := hIH (k, v) (List.mem_cons_self _ _) w hwfv hwfw
      have hL1 := applyPatches_withSeg_key hlkhs happv
      have hmem1 : ∀ kv' ∈ fs', lookupKey (setKey hs k v1) kv'.1 = some kv'.2 :=
        fun kv' hkv' => by
          rw [lookupKey_setKey_ne (hne kv' hkv')]
          exact hmemtail kv' hkv'
      obtain ⟨hs', happ', hnd', hprop1, hprop2⟩ :=
        ih gs (setKey hs k v1) hndfs' (noDupKeysb_setKey hndhs) hwffs' hwfgs
          hmem1 hIH'
      refine ⟨hs', ?_, hnd', ?_, ?_⟩
      · rw [diffFields, hgs]
        rw [applyPatches_append, hL1]
        exact happ'
      · intro k0 h0
        rw [lookupKey] at h0
        split at h0
        · cases h0
        · rename_i hne0
          rw [hprop1 k0 h0]
          exact lookupKey_setKey_ne (fun hc => hne0 hc.symm)
      · intro k0 v0 h0
        rw [lookupKey] at h0
        split at h0
        · rename_i heq0
          cases h0
          subst heq0
          constructor
          · intro hgs0
            rw [hgs] at hgs0
            cases hgs0
          · intro w0 hw0
            rw [hgs] at hw0
            cases hw0
            refine ⟨v1, ?_, heqv⟩
            rw [hprop1 k hkfs']
            exact lookupKey_setKey_self (by rw [hlkhs]; rfl)
        · exact hprop2 k0 v0 h0
    | none =>
      have hremove : applyOp (OV.obj hs) ⟨Op.remove, [Seg.key k], none⟩
          = some (OV.obj (removeKeyL hs k)) := by
        simp [applyOp, applyAtPath, applySeg, hlkhs]
      have hmem1 : ∀ kv' ∈ fs', lookupKey (removeKeyL hs k) kv'.1 = some kv'.2 :=
        fun kv' hkv' => by
          rw [lookupKey_removeKeyL_ne (hne kv' hkv')]
          exact hmemtail kv' hkv'
      obtain ⟨hs', happ', hnd', hprop1, hprop2⟩ :=
        ih gs (removeKeyL hs k) hndfs' (noDupKeysb_removeKeyL hndhs) hwffs'
          hwfgs hmem1 hIH'
      refine ⟨hs', ?_, hnd', ?_, ?_⟩
      · rw [diffFields, hgs]
        show applyPatches (OV.obj hs)
            ([⟨Op.remove, [Seg.key k], none⟩] ++ diffFields fs' gs) = _
        rw [applyPatches_append]
        rw [show applyPatches (OV.obj hs) [⟨Op.remove, [Seg.key k], none⟩]
              = some (OV.obj (removeKeyL hs k)) from by
            rw [applyPatches, hremove]; rfl]
        exact happ'
      · intro k0 h0
        rw [lookupKey] at h0
        split at h0
        · cases h0
        · rename_i hne0
          rw [hprop1 k0 h0]
          exact lookupKey_removeKeyL_ne (fun hc => hne0 hc.symm)
      · intro k0 v0 h0
        rw [lookupKey] at h0
        split at h0
        · rename_i heq0
          cases h0
          subst heq0
          constructor
          · intro _
            rw [hprop1 k hkfs']
            exact lookupKey_removeKeyL_self hndhs
          · intro w0 hw0
            rw [hgs] at hw0
            cases hw0
        · exact hprop2 k0 v0 h0

theorem lookupKey_append_singleton_ne {hs : List (String × OV)} {k k0 : String}
    {w : OV} (h : k0 ≠ k) :
    lookupKey (hs ++ [(k, w)]) k0 = lookupKey hs k0 := by
  cases hl : lookupKey hs k0 with
  | some v => exact lookupKey_append_some hl
  | none =>
    rw [lookupKey_append_none hl]
    rw [lookupKey, if_neg (fun hc => h hc.symm)]
    rfl

theorem applyPatches_addedFields :
    ∀ (gs fs hs : List (String × OV)),
    noDupKeysb gs = true →
    (∀ kv ∈ gs, lookupKey fs kv.1 = none → lookupKey hs kv.1 = none) →
    ∃ hs', applyPatches (OV.obj hs) (addedFields fs gs) = some (OV.obj hs')
      ∧ (∀ k, (lookupKey gs k = none ∨ (lookupKey fs k).isSome = true) →
          lookupKey hs' k = lookupKey hs k)
      ∧ (∀ k w, lookupKey gs k = some w → lookupKey fs k = none →
          lookupKey hs' k = some w) := by
  intro gs
  induction gs with
  | nil =>
    intro fs hs _ _
    refine ⟨hs, by rw [addedFields, applyPatches], fun k _ => rfl, ?_⟩
    intro k w hk
    rw [lookupKey] at hk
    cases hk
  | cons kw grest ih =>
    obtain ⟨k, w⟩ := kw
    intro fs hs hndgs habs
    rw [noDupKeysb] at hndgs
    simp only [Bool.and_eq_true, Option.isNone_iff_eq_none] at hndgs
    obtain ⟨hkgrest, hndgrest⟩ := hndgs
    have hnegs : ∀ kv' ∈ grest, kv'.1 ≠ k := by
      intro kv' hkv' heq
      have hmm : (kv'.1, kv'.2) ∈ grest := by simpa using hkv'
      rw [heq] at hmm
      have := mem_lookupKey_isSome hmm
      rw [hkgrest] at this
      cases this
    cases hfk : lookupKey fs k with
    | none =>
      have hhsk : lookupKey hs k = none :=
        habs (k, w) (List.mem_cons_self _ _) hfk
      have hadd : applyOp (OV.obj hs) ⟨Op.add, [Seg.key k], some w⟩
          = some (OV.obj (hs ++ [(k, w)])) := by
        simp [applyOp, applyAtPath, applySeg, hhsk]
      have habs1 : ∀ kv ∈ grest, lookupKey fs kv.1 = none →
          lookupKey (hs ++ [(k, w)]) kv.1 = none := by
        intro kv hkv hfkv
        rw [lookupKey_append_singleton_ne (hnegs kv hkv)]
        exact habs kv (List.mem_cons_of_mem _ hkv) hfkv
      obtain ⟨hs', happ', hunch, hnew⟩ := ih fs (hs ++ [(k, w)]) hndgrest habs1
      refine ⟨hs', ?_, ?_, ?_⟩
      · rw [addedFields, hfk]
        show applyPatches (OV.obj hs)
            ([⟨Op.add, [Seg.key k], some w⟩] ++ addedFields fs grest) = _
        rw [applyPatches_append]
        rw [show applyPatches (OV.obj hs) [⟨Op.add, [Seg.key k], some w⟩]
              = some (OV.obj (hs ++ [(k, w)])) from by
            rw [applyPatches, hadd]; rfl]
        exact happ'
      · intro k0 h0
        by_cases heq0 : k0 = k
        · subst heq0
          rcases h0 with h0 | h0
          · rw [lookupKey] at h0
            rw [if_pos rfl] at h0
            cases h0
          · rw [hfk] at h0
            cases h0
        · have h0' : lookupKey grest k0 = none ∨ (lookupKey fs k0).isSome = true := by
            rcases h0 with h0 | h0
            · left
              rw [lookupKey, if_neg (fun hc => heq0 hc.symm)] at h0
              exact h0
            · exact Or.inr h0
          rw [hunch k0 h0']
          exact lookupKey_append_singleton_ne heq0
      · intro k0 w0 h0 hf0
        rw [lookupKey] at h0
        split at h0
        · rename_i heq0
          cases h0
          subst heq0
          rw [hunch k (Or.inl hkgrest)]
          rw [lookupKey_append_none hhsk]
          simp [lookupKey]
        · exact hnew k0 w0 h0 hf0
    | some vex =>
      have habs1 : ∀ kv ∈ grest, lookupKey fs kv.1 = none →
          lookupKey hs kv.1 = none :=
        fun kv hkv hfkv => habs kv (List.mem_cons_of_mem _ hkv) hfkv
      obtain ⟨hs', happ', hunch, hnew⟩ := ih fs hs hndgrest habs1
      refine ⟨hs', ?_, ?_, ?_⟩
      · rw [addedFields, hfk]
        show applyPatches (OV.obj hs) ([] ++ addedFields fs grest) = _
        rw [List.nil_append]
        exact happ'
      · intro k0 h0
        by_cases heq0 : k0 = k
        · subst heq0
          exact hunch k0 (Or.inl hkgrest)
        · have h0' : lookupKey grest k0 = none ∨ (lookupKey fs k0).isSome = true := by
            rcases h0 with h0 | h0
            · left
              rw [lookupKey, if_neg (fun hc => heq0 hc.symm)] at h0
              exact h0
            · exact Or.inr h0
          exact hunch k0 h0'
      · intro k0 w0 h0 hf0
        rw [lookupKey] at h0
        split at h0
        · rename_i heq0
          subst heq0
          rw [hfk] at hf0
          cases hf0
        · exact hnew k0 w0 h0 hf0

theorem applyPatches_diffSeq :
    ∀ (xs ys pre : List OV),
    WFbList xs = true → WFbList ys = true →
    (∀ x ∈ xs, ∀ cur, WFb x = true → WFb cur = true →
        ∃ r, applyPatches x (diff x cur) = some r ∧ Eqv r cur) →
    ∃ zs, applyPatches (OV.seq (pre ++ xs)) (diffSeq xs ys pre.length)
        = some (OV.seq (pre ++ zs))
      ∧ zs.length = ys.length
      ∧ (∀ i z y, zs.get? i = some z → ys.get? i = some y → Eqv z y) := by
  intro xs
  induction xs with
  | nil =>
    intro ys pre _ _ _
    refine ⟨ys, ?_, rfl, fun i z y hz hy => by
      rw [hz] at hy; cases hy; exact Eqv.refl z⟩
    rw [diffSeq, List.append_nil]
    exact applyPatches_addsAsc ys pre
  | cons x xs' ih =>
    intro ys pre hwfxs hwfys hIH
    rw [WFbList] at hwfxs
    simp only [Bool.and_eq_true] at hwfxs
    obtain ⟨hwfx, hwfxs'⟩ := hwfxs
    cases ys with
    | nil =>
      refine ⟨[], ?_, rfl, fun i z y hz hy => by simp at hy⟩
      simp only [diffSeq]
      rw [List.append_nil]
      exact applyPatches_removesDesc (x :: xs') pre
    | cons y ys' =>
      rw [WFbList] at hwfys
      simp only [Bool.and_eq_true] at hwfys
      obtain ⟨hwfy, hwfys'⟩ := hwfys
      obtain ⟨x1, happx, heqvx⟩ := hIH x (List.mem_cons_self _ _) y hwfx hwfy
      have hget : (pre ++ x :: xs').get? pre.length = some x := get?_append_len _ _ _
      have hnra : ∀ p ∈ diff x y, p.op = Op.add → p.path ≠ [] :=
        fun p hp hop => diff_add_path_ne_nil hp hop
      have hL2 := applyPatches_withSeg_idx hget hnra happx
      rw [set_append_len] at hL2
      have hIH' : ∀ x' ∈ xs', ∀ cur, WFb x' = true → WFb cur = true →
          ∃ r, applyPatches x' (diff x' cur) = some r ∧ Eqv r cur :=
        fun x' h' => hIH x' (List.mem_cons_of_mem _ h')
      obtain ⟨zs', happ', hlen', hpt'⟩ := ih ys' (pre ++ [x1]) hwfxs' hwfys' hIH'
      refine ⟨x1 :: zs', ?_, by simp [hlen'], ?_⟩
      · rw [diffSeq]
        rw [applyPatches_append, hL2]
        show applyPatches (OV.seq (pre ++ x1 :: xs')) (diffSeq xs' ys' (pre.length + 1))
          = some (OV.seq (pre ++ x1 :: zs'))
        have h1 : pre ++ x1 :: xs' = (pre ++ [x1]) ++ xs' := by simp
        have h2 : pre ++ x1 :: zs' = (pre ++ [x1]) ++ zs' := by simp
        have h3 : pre.length + 1 = (pre ++ [x1]).length := by simp
        rw [h1, h2, h3]
        exact happ'
      · intro i z y' hz hy'
        cases i with
        | zero =>
          cases hz
          cases hy'
          exact heqvx
        | succ n =>
          exact hpt' n z y' hz hy'

theorem diff_roundtrip : ∀ prev cur : OV, WFb prev = true → WFb cur = true →
    ∃ r, applyPatches prev (diff prev cur) = some r ∧ Eqv r cur := by
  intro prev
  induction prev using ovInduction with
  | hs s =>
    intro cur _ _
    cases cur with
    | scalar b =>
      by_cases heq : s = b
      · subst heq
        refine ⟨OV.scalar s, ?_, Eqv.scalar s⟩
        rw [diff, if_pos rfl, applyPatches]
      · refine ⟨OV.scalar b, ?_, Eqv.refl _⟩
        rw [diff, if_neg heq]
        simp [applyPatches, applyOp, applyAtPath]
    | seq ys =>
      refine ⟨OV.seq ys, ?_, Eqv.refl _⟩
      simp only [diff]
      simp [applyPatches, applyOp, applyAtPath]
    | obj gs =>
      refine ⟨OV.obj gs, ?_, Eqv.refl _⟩
      simp only [diff]
      simp [applyPatches, applyOp, applyAtPath]
  | hseq xs ihlist =>
    intro cur hwfp hwfc
    cases cur with
    | scalar b =>
      refine ⟨OV.scalar b, ?_, Eqv.refl _⟩
      simp only [diff]
      simp [applyPatches, applyOp, applyAtPath]
    | obj gs =>
      refine ⟨OV.obj gs, ?_, Eqv.refl _⟩
      simp only [diff]
      simp [applyPatches, applyOp, applyAtPath]
    | seq ys =>
      obtain ⟨zs, happ, hlen, hpt⟩ :=
        applyPatches_diffSeq xs ys [] (WFb_seq_list hwfp) (WFb_seq_list hwfc)
          (fun x hx => ihlist x hx)
      refine ⟨OV.seq zs, ?_, Eqv.seq zs ys hlen hpt⟩
      rw [diff]
      simpa using happ
  | hobj fs ihfields =>
    intro cur hwfp hwfc
    cases cur with
    | scalar b =>
      refine ⟨OV.scalar b, ?_, Eqv.refl _⟩
      simp only [diff]
      simp [applyPatches, applyOp, applyAtPath]
    | seq ys =>
      refine ⟨OV.seq ys, ?_, Eqv.refl _⟩
      simp only [diff]
      simp [applyPatches, applyOp, applyAtPath]
    | obj gs =>
      have hndfs := WFb_obj_nodup hwfp
      have hndgs := WFb_obj_nodup hwfc
      have hwffs := WFb_obj_fields hwfp
      have hwfgs := WFb_obj_fields hwfc
      have hmem0 : ∀ kv ∈ fs, lookupKey fs kv.1 = some kv.2 := by
        intro kv hkv
        have hmm : (kv.1, kv.2) ∈ fs := by simpa using hkv
        exact lookupKey_of_nodup_mem hndfs hmm
      obtain ⟨hs', happ1, hnd', hprop1, hprop2⟩ :=
        applyPatches_diffFields fs gs fs hndfs hndfs hwffs hwfgs hmem0
          (fun kv hkv => ihfields kv hkv)
      have habs : ∀ kv ∈ gs, lookupKey fs kv.1 = none → lookupKey hs' kv.1 = none := by
        intro kv _ hfk
        rw [hprop1 kv.1 hfk]
        exact hfk
      obtain ⟨hs'', happ2, hunch, hnew⟩ :=
        applyPatches_addedFields gs fs hs' hndgs habs
      refine ⟨OV.obj hs'', ?_, ?_⟩
      · rw [diff, applyPatches_append, happ1]
        exact happ2
      · refine Eqv.obj hs'' gs ?_ ?_
        · intro k
          cases hgk : lookupKey gs k with
          | some w =>
            cases hfk : lookupKey fs k with
            | some v0 =>
              obtain ⟨v', hv', _⟩ := (hprop2 k v0 hfk).2 w hgk
              have hk2 : lookupKey hs'' k = some v' := by
                rw [hunch k (Or.inr (by rw [hfk]; rfl))]
                exact hv'
              rw [hk2]
              rfl
            | none =>
              rw [hnew k w hgk hfk]
          | none =>
            cases hfk : lookupKey fs k with
            | some v0 =>
              have h1 : lookupKey hs' k = none := (hprop2 k v0 hfk).1 hgk
              have hk2 : lookupKey hs'' k = none := by
                rw [hunch k (Or.inr (by rw [hfk]; rfl))]
                exact h1
              rw [hk2]
            | none =>
              have h1 : lookupKey hs' k = none := by
                rw [hprop1 k hfk]
                exact hfk
              have hk2 : lookupKey hs'' k = none := by
                rw [hunch k (Or.inl hgk)]
                exact h1
              rw [hk2]
        · intro k v w hv hw
          cases hfk : lookupKey fs k with
          | some v0 =>
            obtain ⟨v', hv', heqv'⟩ := (hprop2 k v0 hfk).2 w hw
            have h2 : lookupKey hs'' k = some v' := by
              rw [hunch k (Or.inr (by rw [hfk]; rfl))]
              exact hv'
            rw [h2] at hv
            cases hv
            exact heqv'
          | none =>
            have h2 : lookupKey hs'' k = some w := hnew k w hw hfk
            rw [h2] at hv
            cases hv
            exact Eqv.refl _

theorem addedFields_all_present :
    ∀ (gs fs : List (String × OV)),
    (∀ kv ∈ gs, (lookupKey fs kv.1).isSome = true) →
    addedFields fs gs = [] := by
  intro gs
  induction gs with
  | nil => intro fs _; rw [addedFields]
  | cons kw grest ih =>
    obtain ⟨k, w⟩ := kw
    intro fs hall
    rw [addedFields]
    have h1 : (lookupKey fs k).isSome = true := hall (k, w) (List.mem_cons_self _ _)
    have h2 : (lookupKey fs k).isNone = false := by
      cases hc : lookupKey fs k
      · rw [hc] at h1; cases h1
      · rfl
    rw [h2]
    simp only [if_neg Bool.false_ne_true, List.nil_append]
    exact ih fs (fun kv h => hall kv (List.mem_cons_of_mem _ h))

theorem diffFields_self_aux :
    ∀ (fs' fs : List (String × OV)),
    (∀ kv ∈ fs', lookupKey fs kv.1 = some kv.2) →
    (∀ kv ∈ fs', diff kv.2 kv.2 = []) →
    diffFields fs' fs = [] := by
  intro fs'
  induction fs' with
  | nil => intro fs _ _; rw [diffFields]
  | cons kv rest ih =>
    obtain ⟨k, v⟩ := kv
    intro fs hmem hdiff
    rw [diffFields]
    rw [hmem (k, v) (List.mem_cons_self _ _)]
    show withSeg (Seg.key k) (diff v v) ++ diffFields rest fs = []
    have hd : diff v v = [] := hdiff (k, v) (List.mem_cons_self _ _)
    rw [hd]
    simp only [withSeg, List.map_nil, List.nil_append]
    exact ih fs (fun kv h => hmem kv (List.mem_cons_of_mem _ h))
      (fun kv h => hdiff kv (List.mem_cons_of_mem _ h))

theorem diffSeq_self_aux :
    ∀ (xs : List OV) (base : Nat),
    (∀ x ∈ xs, diff x x = []) →
    diffSeq xs xs base = [] := by
  intro xs
  induction xs with
  | nil => intro base _; rw [diffSeq, addsAsc]
  | cons x rest ih =>
    intro base hdiff
    rw [diffSeq]
    rw [hdiff x (List.mem_cons_self _ _)]
    simp only [withSeg, List.map_nil, List.nil_append]
    exact ih (base + 1) (fun x h => hdiff x (List.mem_cons_of_mem _ h))

theorem diff_self : ∀ v : OV, WFb v = true → diff v v = [] := by
  intro v
  induction v using ovInduction with
  | hs s => intro _; rw [diff, if_pos rfl]
  | hseq xs ih =>
    intro hwf
    rw [diff]
    exact diffSeq_self_aux xs 0
      (fun x hx => ih x hx (WFbList_mem (WFb_seq_list hwf) hx))
  | hobj fs ih =>
    intro hwf
    rw [diff]
    have hnd := WFb_obj_nodup hwf
    have hwff := WFb_obj_fields hwf
    rw [diffFields_self_aux fs fs
      (fun kv hkv => lookupKey_of_nodup_mem hnd (by simpa using hkv))
      (fun kv hkv => ih kv hkv (WFbFields_mem hwff (by simpa using hkv)))]
    rw [addedFields_all_present fs fs
      (fun kv hkv => mem_lookupKey_isSome (show (kv.1, kv.2) ∈ fs by simpa using hkv))]
    rfl

theorem diffFields_append :
    ∀ (l1 l2 gs : List (String × OV)),
    diffFields (l1 ++ l2) gs = diffFields l1 gs ++ diffFields l2 gs := by
  intro l1
  induction l1 with
  | nil => intro l2 gs; rw [diffFields]; simp
  | cons kv rest ih =>
    obtain ⟨k, v⟩ := kv
    intro l2 gs
    rw [List.cons_append, diffFields, diffFields, ih, List.append_assoc]

/-! ## Key-occurrence lemmas (hook precedence) -/

theorem keyOccursFields_mem_key {fs : List (String × OV)} {k : String} {v : OV}
    (h : (k, v) ∈ fs) : keyOccursFields k fs = true := by
  induction fs with
  | nil => simp at h
  | cons kv rest ih =>
    obtain ⟨k', v'⟩ := kv
    rw [keyOccursFields]
    simp only [Bool.or_eq_true]
    rcases List.mem_cons.mp h with heq | hmem
    · cases heq
      exact Or.inl (Or.inl (by simp))
    · exact Or.inr (ih hmem)

theorem keyOccursFields_mem_val {fs : List (String × OV)} {k k' : String} {v : OV}
    (h : (k', v) ∈ fs) (hocc : keyOccurs k v = true) :
    keyOccursFields k fs = true := by
  induction fs with
  | nil => simp at h
  | cons kv rest ih =>
    obtain ⟨k'', v''⟩ := kv
    rw [keyOccursFields]
    simp only [Bool.or_eq_true]
    rcases List.mem_cons.mp h with heq | hmem
    · cases heq
      exact Or.inl (Or.inr hocc)
    · exact Or.inr (ih hmem)

theorem keyOccursList_mem {xs : List OV} {k : String} {x : OV}
    (h : x ∈ xs) (hocc : keyOccurs k x = true) :
    keyOccursList k xs = true := by
  induction xs with
  | nil => simp at h
  | cons y rest ih =>
    rw [keyOccursList]
    simp only [Bool.or_eq_true]
    rcases List.mem_cons.mp h with heq | hmem
    · cases heq
      exact Or.inl hocc
    · exact Or.inr (ih hmem)

theorem diffSeq_key_mention :
    ∀ (xs : List OV),
    (∀ x ∈ xs, ∀ v' p' k', p' ∈ diff x v' → keyInPatch k' p' →
        keyOccurs k' x = true ∨ keyOccurs k' v' = true) →
    ∀ (ys : List OV) (base : Nat) (p : PatchOp) (k : String),
    p ∈ diffSeq xs ys base → keyInPatch k p →
    keyOccursList k xs = true ∨ keyOccursList k ys = true := by
  intro xs
  induction xs with
  | nil =>
    intro _ ys base p k hmem hkip
    rw [diffSeq] at hmem
    obtain ⟨i, y, hy, heq⟩ := mem_addsAsc hmem
    subst heq
    rcases hkip with hpath | ⟨w, hw, hocc⟩
    · rcases List.mem_singleton.mp hpath with h
      cases h
    · cases hw
      exact Or.inr (keyOccursList_mem hy hocc)
  | cons x xs' ih =>
    intro hIH ys base p k hmem hkip
    cases ys with
    | nil =>
      simp only [diffSeq] at hmem
      obtain ⟨i, heq⟩ := mem_removesDesc hmem
      subst heq
      rcases hkip with hpath | ⟨w, hw, hocc⟩
      · rcases List.mem_singleton.mp hpath with h
        cases h
      · cases hw
    | cons y ys' =>
      rw [diffSeq] at hmem
      have hlift : keyOccurs k x = true ∨ keyOccurs k y = true →
          keyOccursList k (x :: xs') = true ∨ keyOccursList k (y :: ys') = true := by
        rintro (h | h)
        · left; rw [keyOccursList]; simp [h]
        · right; rw [keyOccursList]; simp [h]
      rcases List.mem_append.mp hmem with hmem1 | hmem2
      · obtain ⟨q, hq, hop, hpath, hval⟩ := mem_withSeg hmem1
        have hkipq : keyInPatch k q := by
          rcases hkip with hp | ⟨w, hw, hocc⟩
          · rw [hpath] at hp
            rcases List.mem_cons.mp hp with h | h
            · cases h
            · exact Or.inl h
          · exact Or.inr ⟨w, by rw [← hval]; exact hw, hocc⟩
        exact hlift (hIH x (List.mem_cons_self _ _) y q k hq hkipq)
      · have hrest := ih (fun x' h' => hIH x' (List.mem_cons_of_mem _ h'))
          ys' (base + 1) p k hmem2 hkip
        rcases hrest with h | h
        · left; rw [keyOccursList]; simp [h]
        · right; rw [keyOccursList]; simp [h]

theorem diffFields_key_mention :
    ∀ (fs : List (String × OV)),
    (∀ kv ∈ fs, ∀ v' p' k', p' ∈ diff kv.2 v' → keyInPatch k' p' →
        keyOccurs k' kv.2 = true ∨ keyOccurs k' v' = true) →
    ∀ (gs : List (String × OV)) (p : PatchOp) (k : String),
    p ∈ diffFields fs gs → keyInPatch k p →
    keyOccursFields k fs = true ∨ keyOccursFields k gs = true := by
  intro fs
  induction fs with
  | nil =>
    intro _ gs p k hmem _
    rw [diffFields] at hmem
    simp at hmem
  | cons kv fs' ih =>
    obtain ⟨k', v⟩ := kv
    intro hIH gs p k hmem hkip
    rw [diffFields] at hmem
    have hlift1 : k = k' → keyOccursFields k ((k', v) :: fs') = true := by
      intro heq
      subst heq
      rw [keyOccursFields]
      simp
    have hlift2 : keyOccurs k v = true → keyOccursFields k ((k', v) :: fs') = true := by
      intro h
      rw [keyOccursFields]
      simp [h]
    rcases List.mem_append.mp hmem with hmem1 | hmem2
    · cases hgk : lookupKey gs k' with
      | some w =>
        rw [hgk] at hmem1
        obtain ⟨q, hq, hop, hpath, hval⟩ := mem_withSeg hmem1
        rcases hkip with hp | ⟨w0, hw0, hocc⟩
        · rw [hpath] at hp
          rcases List.mem_cons.mp hp with h | h
          · cases h
            exact Or.inl (hlift1 rfl)
          · have hkipq : keyInPatch k q := Or.inl h
            rcases hIH (k', v) (List.mem_cons_self _ _) w q k hq hkipq with h2 | h2
            · exact Or.inl (hlift2 h2)
            · exact Or.inr (keyOccursFields_mem_val (lookupKey_mem hgk) h2)
        · have hkipq : keyInPatch k q := Or.inr ⟨w0, by rw [← hval]; exact hw0, hocc⟩
          rcases hIH (k', v) (List.mem_cons_self _ _) w q k hq hkipq with h2 | h2
          · exact Or.inl (hlift2 h2)
          · exact Or.inr (keyOccursFields_mem_val (lookupKey_mem hgk) h2)
      | none =>
        rw [hgk] at hmem1
        rcases List.mem_singleton.mp hmem1 with heq
        subst heq
        rcases hkip with hp | ⟨w0, hw0, hocc⟩
        · rcases List.mem_singleton.mp hp with h
          cases h
          exact Or.inl (hlift1 rfl)
        · cases hw0
    · have := ih (fun kv' h' => hIH kv' (List.mem_cons_of_mem _ h')) gs p k hmem2 hkip
      rcases this with h | h
      · left
        rw [keyOccursFields]
        simp [h]
      · exact Or.inr h

theorem diff_key_mention :
    ∀ (u v : OV) (p : PatchOp) (k : String),
    p ∈ diff u v → keyInPatch k p →
    keyOccurs k u = true ∨ keyOccurs k v = true := by
  intro u
  induction u using ovInduction with
  | hs s =>
    intro v p k hmem hkip
    cases v with
    | scalar b =>
      rw [diff] at hmem
      split at hmem
      · simp at hmem
      · rcases List.mem_singleton.mp hmem with heq
        subst heq
        rcases hkip with hp | ⟨w, hw, hocc⟩
        · simp at hp
        · cases hw
          rw [keyOccurs] at hocc
          cases hocc
    | seq ys =>
      simp only [diff] at hmem
      rcases List.mem_singleton.mp hmem with heq
      subst heq
      rcases hkip with hp | ⟨w, hw, hocc⟩
      · simp at hp
      · cases hw
        exact Or.inr hocc
    | obj gs =>
      simp only [diff] at hmem
      rcases List.mem_singleton.mp hmem with heq
      subst heq
      rcases hkip with hp | ⟨w, hw, hocc⟩
      · simp at hp
      · cases hw
        exact Or.inr hocc
  | hseq xs ihl =>
    intro v p k hmem hkip
    cases v with
    | scalar b =>
      simp only [diff] at hmem
      rcases List.mem_singleton.mp hmem with heq
      subst heq
      rcases hkip with hp | ⟨w, hw, hocc⟩
      · simp at hp
      · cases hw
        exact Or.inr hocc
    | obj gs =>
      simp only [diff] at hmem
      rcases List.mem_singleton.mp hmem with heq
      subst heq
      rcases hkip with hp | ⟨w, hw, hocc⟩
      · simp at hp
      · cases hw
        exact Or.inr hocc
    | seq ys =>
      rw [diff] at hmem
      exact diffSeq_key_mention xs (fun x hx => ihl x hx) ys 0 p k hmem hkip
  | hobj fs ihf =>
    intro v p k hmem hkip
    cases v with
    | scalar b =>
      simp only [diff] at hmem
      rcases List.mem_singleton.mp hmem with heq
      subst heq
      rcases hkip with hp | ⟨w, hw, hocc⟩
      · simp at hp
      · cases hw
        exact Or.inr hocc
    | seq ys =>
      simp only [diff] at hmem
      rcases List.mem_singleton.mp hmem with heq
      subst heq
      rcases hkip with hp | ⟨w, hw, hocc⟩
      · simp at hp
      · cases hw
        exact Or.inr hocc
    | obj gs =>
      rw [diff] at hmem
      rcases List.mem_append.mp hmem with hmem1 | hmem2
      · exact diffFields_key_mention fs (fun kv hkv => ihf kv hkv) gs p k hmem1 hkip
      · obtain ⟨k', w, heq, hnone, hmemgs⟩ := mem_addedFields hmem2
        subst heq
        rcases hkip with hp | ⟨w0, hw0, hocc⟩
        · rcases List.mem_singleton.mp hp with h
          cases h
          exact Or.inr (keyOccursFields_mem_key hmemgs)
        · cases hw0
          exact Or.inr (keyOccursFields_mem_val hmemgs hocc)

theorem diffSeq_shrink :
    ∀ (ys extra : List OV) (base : Nat), WFbList ys = true →
    diffSeq (ys ++ extra) ys base = removesDesc extra.length (base + ys.length) := by
  intro ys
  induction ys with
  | nil =>
    intro extra base _
    cases extra with
    | nil => simp [diffSeq, addsAsc, removesDesc]
    | cons e es =>
      simp only [List.nil_append, diffSeq]
      simp
  | cons y ys' ih =>
    intro extra base hwf
    rw [WFbList] at hwf
    simp only [Bool.and_eq_true] at hwf
    obtain ⟨hwfy, hwfys'⟩ := hwf
    rw [List.cons_append, diffSeq]
    rw [diff_self y hwfy]
    simp only [withSeg, List.map_nil, List.nil_append]
    rw [ih extra (base + 1) hwfys']
    have heq : base + 1 + ys'.length = base + (y :: ys').length := by
      simp only [List.length_cons]
      omega
    rw [heq]

/-! ## Key ordering of record diffs -/

theorem not_headKeyIs_of_diffFields {fs gs : List (String × OV)} {p : PatchOp}
    {k : String} (hmem : p ∈ diffFields fs gs)
    (hk : ¬ k ∈ fs.map Prod.fst) : ¬ headKeyIs k p := by
  rintro ⟨rest, hpath⟩
  obtain ⟨k', rest', hpath', hkmem⟩ := mem_diffFields_shape hmem
  rw [hpath] at hpath'
  cases hpath'
  exact hk hkmem

theorem not_headKeyIs_of_addedFields {fs gs : List (String × OV)} {p : PatchOp}
    {k : String} (hmem : p ∈ addedFields fs gs)
    (hk : (lookupKey fs k).isSome = true) : ¬ headKeyIs k p := by
  rintro ⟨rest, hpath⟩
  obtain ⟨k', w, heq, hnone, _⟩ := mem_addedFields hmem
  rw [heq] at hpath
  cases hpath
  rw [hnone] at hk
  cases hk

theorem get?_append_partition {A B : List PatchOp} {i j : Nat} {p q : PatchOp}
    (hp : (A ++ B).get? i = some p) (hq : (A ++ B).get? j = some q)
    (P Q : PatchOp → Prop)
    (hP : P p) (hQ : Q q)
    (hBnoP : ∀ r ∈ B, ¬ P r) (hAnoQ : ∀ r ∈ A, ¬ Q r) : i < j := by
  have hi : i < A.length := by
    by_contra hc
    rw [List.get?_append_right (by omega)] at hp
    exact hBnoP p (List.get?_mem hp) hP
  have hj : A.length ≤ j := by
    by_contra hc
    rw [List.get?_append (by omega)] at hq
    exact hAnoQ q (List.get?_mem hq) hQ
  omega

/-! ## Claim theorems -/

/-- C1: for every tracked root and every mutation of the live root
between two `getPatches` calls, applying the patch list returned by
`getPatches`, in order, to the previously stored Observed Value yields
exactly the Observed Value that the call stores (value identity of
Observed Values: `Eqv`, the order-insensitive record equality by which
JSON values are compared). -/
theorem getPatches_roundtrip (o : StateObserver) (current : OV)
    (hprev : WFb o.snapshot = true) (hcur : WFb current = true) :
    ∃ r, applyPatches o.snapshot ((o.getPatches current).1) = some r
      ∧ Eqv r ((o.getPatches current).2.snapshot) :=
  diff_roundtrip o.snapshot current hprev hcur

/-- Witness for C1 at a concrete tracked root and mutation. -/
theorem getPatches_roundtrip_witness :
    WFb (StateObserver.new (OV.obj [("a", ovNum 1)])).snapshot = true
    ∧ WFb (OV.obj [("a", ovNum 2)]) = true
    ∧ ∃ r, applyPatches (StateObserver.new (OV.obj [("a", ovNum 1)])).snapshot
          (((StateObserver.new (OV.obj [("a", ovNum 1)])).getPatches
              (OV.obj [("a", ovNum 2)])).1) = some r
        ∧ Eqv r (((StateObserver.new (OV.obj [("a", ovNum 1)])).getPatches
              (OV.obj [("a", ovNum 2)])).2.snapshot) :=
  ⟨rfl, rfl, getPatches_roundtrip (StateObserver.new (OV.obj [("a", ovNum 1)]))
    (OV.obj [("a", ovNum 2)]) rfl rfl⟩

/-- C2: starting from the tracked state `{string: "Hello world",
array: [1..10], objs: [{hp:100,x:0,y:0}], boolean: true}` with the
initial snapshot captured, after setting `objs[0].x = 100` and appending
`{hp:80,x:100,y:200}` to `objs`, `getPatches` returns exactly
`[{op: replace, path: "/objs/0/x", value: 100},
{op: add, path: "/objs/1", value: {hp:80,x:100,y:200}}]` in that order,
and an immediately following call with no further mutation returns
the empty list. -/
theorem getPatches_diff_state_scenario :
    ((StateObserver.new c2Initial).getPatches c2Mutated).1.map PatchOp.render
      = [⟨Op.replace, "/objs/0/x", some (ovNum 100)⟩,
         ⟨Op.add, "/objs/1",
          some (OV.obj [("hp", ovNum 80), ("x", ovNum 100), ("y", ovNum 200)])⟩]
    ∧ ((((StateObserver.new c2Initial).getPatches c2Mutated).2).getPatches
        c2Mutated).1 = [] :=
  ⟨rfl, rfl⟩

/-- C3: when diffing two Keyed Records, the union of keys is iterated
with all of `previous`'s keys first, in `previous`'s key order, then the
keys new to `current`; hence for any two keys of `previous`, every patch
for the earlier key precedes every patch for the later key in the
returned sequence. -/
theorem diff_obj_prev_key_order
    (fs1 fs2 fs3 gs : List (String × OV)) (k1 k2 : String) (v1 v2 : OV)
    (hnd : noDupKeysb (fs1 ++ (k1, v1) :: fs2 ++ (k2, v2) :: fs3) = true)
    (i j : Nat) (p q : PatchOp)
    (hp : (diff (OV.obj (fs1 ++ (k1, v1) :: fs2 ++ (k2, v2) :: fs3))
        (OV.obj gs)).get? i = some p)
    (hq : (diff (OV.obj (fs1 ++ (k1, v1) :: fs2 ++ (k2, v2) :: fs3))
        (OV.obj gs)).get? j = some q)
    (hk1 : headKeyIs k1 p) (hk2 : headKeyIs k2 q) : i < j := by
  have hkeys : (fs1 ++ (k1, v1) :: fs2 ++ (k2, v2) :: fs3).map Prod.fst
      = (fs1.map Prod.fst ++ k1 :: fs2.map Prod.fst)
        ++ (k2 :: fs3.map Prod.fst) := by
    simp
  have hndk := noDupKeysb_iff.mp hnd
  rw [hkeys] at hndk
  have hdisj := List.disjoint_of_nodup_append hndk
  have hk2notleft : ¬ k2 ∈ fs1.map Prod.fst ++ k1 :: fs2.map Prod.fst :=
    fun hmem => hdisj hmem (List.mem_cons_self _ _)
  have hk1notright : ¬ k1 ∈ k2 :: fs3.map Prod.fst :=
    fun hmem => hdisj (by simp) hmem
  have hk1fs : (lookupKey (fs1 ++ (k1, v1) :: fs2 ++ (k2, v2) :: fs3) k1).isSome
      = true := by
    rw [lookupKey_isSome_iff, hkeys]
    simp
  have h1 : fs1 ++ (k1, v1) :: fs2 ++ (k2, v2) :: fs3
      = (fs1 ++ (k1, v1) :: fs2) ++ ((k2, v2) :: fs3) := by simp
  have hdiff : diff (OV.obj (fs1 ++ (k1, v1) :: fs2 ++ (k2, v2) :: fs3)) (OV.obj gs)
      = diffFields (fs1 ++ (k1, v1) :: fs2) gs
        ++ (diffFields ((k2, v2) :: fs3) gs
            ++ addedFields (fs1 ++ (k1, v1) :: fs2 ++ (k2, v2) :: fs3) gs) := by
    rw [diff]
    rw [show diffFields (fs1 ++ (k1, v1) :: fs2 ++ (k2, v2) :: fs3) gs
          = diffFields ((fs1 ++ (k1, v1) :: fs2) ++ ((k2, v2) :: fs3)) gs from by
        rw [← h1]]
    rw [diffFields_append, List.append_assoc]
  rw [hdiff] at hp hq
  refine get?_append_partition hp hq (headKeyIs k1) (headKeyIs k2) hk1 hk2 ?_ ?_
  · intro r hr
    rcases List.mem_append.mp hr with h | h
    · exact not_headKeyIs_of_diffFields h (by
        intro hmem
        exact hk1notright (by simpa using hmem))
    · exact not_headKeyIs_of_addedFields h hk1fs
  · intro r hr
    exact not_headKeyIs_of_diffFields hr (by
      intro hmem
      exact hk2notleft (by simpa using hmem))

/-- Witness for C3 at a concrete two-key record with both keys changed. -/
theorem diff_obj_prev_key_order_witness :
    noDupKeysb ([] ++ ("a", ovNum 1) :: [] ++ ("b", ovNum 2) :: []) = true
    ∧ (diff (OV.obj ([] ++ ("a", ovNum 1) :: [] ++ ("b", ovNum 2) :: []))
        (OV.obj [("a", ovNum 10), ("b", ovNum 20)])).get? 0
        = some ⟨Op.replace, [Seg.key "a"], some (ovNum 10)⟩
    ∧ (diff (OV.obj ([] ++ ("a", ovNum 1) :: [] ++ ("b", ovNum 2) :: []))
        (OV.obj [("a", ovNum 10), ("b", ovNum 20)])).get? 1
        = some ⟨Op.replace, [Seg.key "b"], some (ovNum 20)⟩
    ∧ headKeyIs "a" ⟨Op.replace, [Seg.key "a"], some (ovNum 10)⟩
    ∧ headKeyIs "b" ⟨Op.replace, [Seg.key "b"], some (ovNum 20)⟩
    ∧ 0 < 1 :=
  ⟨rfl, rfl, rfl, ⟨[], rfl⟩, ⟨[], rfl⟩,
    diff_obj_prev_key_order [] [] [] [("a", ovNum 10), ("b", ovNum 20)]
      "a" "b" (ovNum 1) (ovNum 2) rfl 0 1
      ⟨Op.replace, [Seg.key "a"], some (ovNum 10)⟩
      ⟨Op.replace, [Seg.key "b"], some (ovNum 20)⟩
      rfl rfl ⟨[], rfl⟩ ⟨[], rfl⟩⟩

/-- C4: fields omitted by a node's canonical-serialization hook never
appear in any patch: the Projector's output for a hooked node depends
only on the hook's returned representation (never the raw fields), every
key a diff patch mentions (in its path or inside its value) occurs in
one of the two diffed Observed Values, and hence a key absent from both
projections is never mentioned by any patch `getPatches` returns. -/
theorem hook_omitted_fields_never_in_patches :
    (∀ (g : Graph) (stack : List Nat) (raw hook : List (String × LiveVal)),
      projectNode g stack (NodeDef.hooked raw hook)
        = projectNode g stack (NodeDef.plain hook))
    ∧ (∀ (u v : OV) (p : PatchOp) (k : String),
        p ∈ diff u v → keyInPatch k p →
        keyOccurs k u = true ∨ keyOccurs k v = true)
    ∧ (∀ (g1 g2 : Graph) (root : Nat) (k : String) (p : PatchOp),
        ¬ keyOccurs k (projectRoot g1 root) = true →
        ¬ keyOccurs k (projectRoot g2 root) = true →
        p ∈ ((StateObserver.new (projectRoot g1 root)).getPatches
            (projectRoot g2 root)).1 →
        ¬ keyInPatch k p) := by
  refine ⟨?_, diff_key_mention, ?_⟩
  · intro g stack raw hook
    rw [projectNode, projectNode]
  · intro g1 g2 root k p h1 h2 hmem hkip
    rcases diff_key_mention (projectRoot g1 root) (projectRoot g2 root) p k
        hmem hkip with h | h
    · exact h1 h
    · exact h2 h

/-- Witness for C4: a hooked node whose raw `secret` field (a
back-reference) is omitted by the hook; the only patch for a mutation of
`hp` never mentions `secret`. -/
theorem hook_omitted_fields_never_in_patches_witness :
    ¬ keyOccurs "secret" (projectRoot hookedG1 0) = true
    ∧ ¬ keyOccurs "secret" (projectRoot hookedG2 0) = true
    ∧ (⟨Op.replace, [Seg.key "hp"], some (ovNum 2)⟩ : PatchOp)
        ∈ ((StateObserver.new (projectRoot hookedG1 0)).getPatches
            (projectRoot hookedG2 0)).1
    ∧ ¬ keyInPatch "secret" ⟨Op.replace, [Seg.key "hp"], some (ovNum 2)⟩ := by
  have hp1 : projectRoot hookedG1 0
      = OV.obj [("hp", ovNum 1)] := by
    simp [projectRoot, projectVal, projectNode, projectFields, lookupNode,
      hookedG1, ovNum]
  have hp2 : projectRoot hookedG2 0
      = OV.obj [("hp", ovNum 2)] := by
    simp [projectRoot, projectVal, projectNode, projectFields, lookupNode,
      hookedG2, ovNum]
  have h1 : ¬ keyOccurs "secret" (projectRoot hookedG1 0) = true := by
    rw [hp1]
    simp [keyOccurs, keyOccursFields, ovNum]
  have h2 : ¬ keyOccurs "secret" (projectRoot hookedG2 0) = true := by
    rw [hp2]
    simp [keyOccurs, keyOccursFields, ovNum]
  have hmem : (⟨Op.replace, [Seg.key "hp"], some (ovNum 2)⟩ : PatchOp)
      ∈ ((StateObserver.new (projectRoot hookedG1 0)).getPatches
          (projectRoot hookedG2 0)).1 := by
    show _ ∈ diff (projectRoot hookedG1 0) (projectRoot hookedG2 0)
    rw [hp1, hp2]
    show _ ∈ diff (OV.obj [("hp", ovNum 1)]) (OV.obj [("hp", ovNum 2)])
    exact List.mem_singleton_self _
  exact ⟨h1, h2, hmem,
    (hook_omitted_fields_never_in_patches).2.2 hookedG1 hookedG2 0 "secret"
      ⟨Op.replace, [Seg.key "hp"], some (ovNum 2)⟩ h1 h2 hmem⟩

/-- C5: projection is cycle-safe: a reference whose target is already on
the active projection stack (a back-reference to an ancestor) is
projected as the empty/opaque placeholder rather than recursed into, and
projection of a concrete cyclic graph (a child holding a `parent`
back-reference, with no hook involved) terminates with the back-reference
replaced by the placeholder. -/
theorem projection_cycle_guard :
    (∀ (g : Graph) (stack : List Nat) (id : Nat), id ∈ stack →
      projectVal g stack (LiveVal.ref id) = OV.obj [])
    ∧ projectRoot cyclicG 0
        = OV.obj [("name", OV.scalar (Scalar.str "root")),
                  ("child", OV.obj [("parent", OV.obj []),
                                    ("hp", OV.scalar (Scalar.num 100))])] := by
  constructor
  · intro g stack id h
    rw [projectVal]
    simp [h]
  · simp [projectRoot, projectVal, projectNode, projectFields, lookupNode,
      cyclicG]

/-- Witness for C5's guarded branch at a concrete stack. -/
theorem projection_cycle_guard_witness :
    (7 : Nat) ∈ [3, 7] ∧ projectVal [] [3, 7] (LiveVal.ref 7) = OV.obj [] :=
  ⟨by decide, projection_cycle_guard.1 [] [3, 7] 7 (by decide)⟩

/-- C6: for a freshly constructed observer whose live root has not been
mutated since construction, the first `getPatches` call returns the
empty sequence. -/
theorem fresh_observer_no_patches (current : OV) (h : WFb current = true) :
    ((StateObserver.new current).getPatches current).1 = [] :=
  diff_self current h

/-- Witness for C6 at the concrete plain state. -/
theorem fresh_observer_no_patches_witness :
    WFb c2Initial = true
    ∧ ((StateObserver.new c2Initial).getPatches c2Initial).1 = [] :=
  ⟨rfl, fresh_observer_no_patches c2Initial rfl⟩

/-- C7: calling `getPatches` twice in succession with no mutation
between the calls returns the empty sequence on the second call, and the
snapshot capture step executes on every call — also on calls whose patch
list is empty: after any call the stored snapshot is the current
projection. -/
theorem getPatches_idempotent_no_mutation (o : StateObserver) (current : OV)
    (h : WFb current = true) :
    (((o.getPatches current).2).getPatches current).1 = []
    ∧ ((o.getPatches current).2).snapshot = current :=
  ⟨diff_self current h, rfl⟩

/-- Witness for C7 at a concrete observer. -/
theorem getPatches_idempotent_no_mutation_witness :
    WFb c2Mutated = true
    ∧ ((((StateObserver.new c2Initial).getPatches c2Mutated).2).getPatches
        c2Mutated).1 = []
    ∧ (((StateObserver.new c2Initial).getPatches c2Mutated).2).snapshot
        = c2Mutated :=
  ⟨rfl, (getPatches_idempotent_no_mutation (StateObserver.new c2Initial)
      c2Mutated rfl).1,
    (getPatches_idempotent_no_mutation (StateObserver.new c2Initial)
      c2Mutated rfl).2⟩

/-- C8: for every tracked Ordered Sequence shrinking from length 11 to
length 9 with the surviving prefix unchanged, `getPatches` returns
exactly two `remove` operations at the trailing indices 10 then 9, and
no `add` operation. -/
theorem seq_shrink_two_removes (ys extra : List OV)
    (h9 : ys.length = 9) (h2 : extra.length = 2) (hwf : WFbList ys = true) :
    ((StateObserver.new (OV.seq (ys ++ extra))).getPatches (OV.seq ys)).1
      = [⟨Op.remove, [Seg.idx 10], none⟩, ⟨Op.remove, [Seg.idx 9], none⟩] := by
  show diff (OV.seq (ys ++ extra)) (OV.seq ys) = _
  rw [diff, diffSeq_shrink ys extra 0 hwf, h2, h9]
  rfl

/-- Witness for C8 at a concrete length-11 sequence. -/
theorem seq_shrink_two_removes_witness :
    ([ovNum 1, ovNum 2, ovNum 3, ovNum 4, ovNum 5, ovNum 6, ovNum 7,
      ovNum 8, ovNum 9] : List OV).length = 9
    ∧ ([ovNum 10, ovNum 11] : List OV).length = 2
    ∧ WFbList [ovNum 1, ovNum 2, ovNum 3, ovNum 4, ovNum 5, ovNum 6, ovNum 7,
        ovNum 8, ovNum 9] = true
    ∧ ((StateObserver.new (OV.seq ([ovNum 1, ovNum 2, ovNum 3, ovNum 4,
          ovNum 5, ovNum 6, ovNum 7, ovNum 8, ovNum 9]
          ++ [ovNum 10, ovNum 11]))).getPatches
        (OV.seq [ovNum 1, ovNum 2, ovNum 3, ovNum 4, ovNum 5, ovNum 6,
          ovNum 7, ovNum 8, ovNum 9])).1
      = [⟨Op.remove, [Seg.idx 10], none⟩, ⟨Op.remove, [Seg.idx 9], none⟩] :=
  ⟨rfl, rfl, rfl,
    seq_shrink_two_removes
      [ovNum 1, ovNum 2, ovNum 3, ovNum 4, ovNum 5, ovNum 6, ovNum 7,
        ovNum 8, ovNum 9]
      [ovNum 10, ovNum 11] rfl rfl rfl⟩

/-- C9: every successful JSON response of `POST /auth/login` and
`POST /auth/register` omits the password field: the handler deletes
`user.password` from the record returned by `onFindUserByEmail` before
sending the response, so the stored password hash never appears in a
success response body. -/
theorem auth_success_omits_password :
    (∀ (findUser : String → Option (List (String × OV)))
       (hash : String → String) (genToken : List (String × OV) → String)
       (validEmail : String → Bool) (email password : String)
       (u : List (String × OV)) (t : String),
      loginHandler findUser hash genToken validEmail email password
        = AuthResult.ok u t → lookupKey u "password" = none)
    ∧ (∀ (fb fa : String → Option (List (String × OV)))
        (genToken : List (String × OV) → String)
        (validEmail validPassword : String → Bool) (email password : String)
        (u : List (String × OV)) (t : String),
      registerHandler fb fa genToken validEmail validPassword email password
        = AuthResult.ok u t → lookupKey u "password" = none) := by
  constructor
  · intro findUser hash genToken validEmail email password u t heq
    rw [loginHandler] at heq
    split at heq
    · cases heq
    · split at heq
      · cases heq
      · split at heq
        · split at heq
          · cases heq
            exact lookupKey_deleteKey_self
          · cases heq
        · cases heq
  · intro fb fa genToken validEmail validPassword email password u t heq
    rw [registerHandler] at heq
    split at heq
    · cases heq
    · split at heq
      · cases heq
      · split at heq
        · cases heq
        · split at heq
          · cases heq
          · cases heq
            exact lookupKey_deleteKey_self

/-- Witness for C9 at a concrete login and register exchange. -/
theorem auth_success_omits_password_witness :
    loginHandler
        (fun _ => some [("name", OV.scalar (Scalar.str "n")),
                        ("password", OV.scalar (Scalar.str "h"))])
        (fun _ => "h") (fun _ => "tok") (fun _ => true) "a@b.co" "pw"
      = AuthResult.ok [("name", OV.scalar (Scalar.str "n"))] "tok"
    ∧ lookupKey [("name", OV.scalar (Scalar.str "n"))] "password" = none
    ∧ registerHandler (fun _ => none)
        (fun _ => some [("name", OV.scalar (Scalar.str "n")),
                        ("password", OV.scalar (Scalar.str "h"))])
        (fun _ => "tok") (fun _ => true) (fun _ => true) "a@b.co" "secret1"
      = AuthResult.ok [("name", OV.scalar (Scalar.str "n"))] "tok"
    ∧ lookupKey [("name", OV.scalar (Scalar.str "n"))] "password" = none :=
  ⟨rfl,
    (auth_success_omits_password).1
      (fun _ => some [("name", OV.scalar (Scalar.str "n")),
                      ("password", OV.scalar (Scalar.str "h"))])
      (fun _ => "h") (fun _ => "tok") (fun _ => true) "a@b.co" "pw"
      [("name", OV.scalar (Scalar.str "n"))] "tok" rfl,
    rfl,
    (auth_success_omits_password).2
      (fun _ => none)
      (fun _ => some [("name", OV.scalar (Scalar.str "n")),
                      ("password", OV.scalar (Scalar.str "h"))])
      (fun _ => "tok") (fun _ => true) (fun _ => true) "a@b.co" "secret1"
      [("name", OV.scalar (Scalar.str "n"))] "tok" rfl⟩

/-- C10: a reset-password token is single-use: after one successful
`POST /auth/reset-password` with token `t` — which records the key
`"reset-password:" ++ t` in the presence store — any subsequent POST
with the same token while that key is present does not invoke
`onResetPassword` and redirects with error `token_already_used`. -/
theorem reset_token_single_use
    (verify : String → Option String) (hash : String → String)
    (validPassword : String → Bool) (presence : List String)
    (token password email : String)
    (hver : verify token = some email)
    (hsucc : (resetPasswordHandler verify hash validPassword presence
        token password).redirect = ResetRedirect.success) :
    ("reset-password:" ++ token)
        ∈ (resetPasswordHandler verify hash validPassword presence
            token password).presence
    ∧ ∀ (presence2 : List String) (password2 : String),
        ("reset-password:" ++ token) ∈ presence2 →
        (resetPasswordHandler verify hash validPassword presence2
            token password2).invoked = none
        ∧ (resetPasswordHandler verify hash validPassword presence2
            token password2).redirect
          = ResetRedirect.failure "token_already_used" := by
  constructor
  · by_cases hmem : ("reset-password:" ++ token) ∈ presence
    · simp [resetPasswordHandler, hver, hmem] at hsucc
    · by_cases hvp : validPassword password = true
      · simp [resetPasswordHandler, hver, hmem, hvp]
      · simp [resetPasswordHandler, hver, hmem, hvp] at hsucc
  · intro presence2 password2 hmem2
    constructor
    · simp [resetPasswordHandler, hver, hmem2]
    · simp [resetPasswordHandler, hver, hmem2]

/-- Witness for C10 at a concrete token exchange. -/
theorem reset_token_single_use_witness :
    (fun (_ : String) => some "e@x.co") "tok" = some "e@x.co"
    ∧ (resetPasswordHandler (fun _ => some "e@x.co") (fun s => s)
        (fun _ => true) [] "tok" "secret1").redirect = ResetRedirect.success
    ∧ (("reset-password:" ++ "tok")
        ∈ (resetPasswordHandler (fun _ => some "e@x.co") (fun s => s)
            (fun _ => true) [] "tok" "secret1").presence
      ∧ ∀ (presence2 : List String) (password2 : String),
          ("reset-password:" ++ "tok") ∈ presence2 →
          (resetPasswordHandler (fun _ => some "e@x.co") (fun s => s)
              (fun _ => true) presence2 "tok" password2).invoked = none
          ∧ (resetPasswordHandler (fun _ => some "e@x.co") (fun s => s)
              (fun _ => true) presence2 "tok" password2).redirect
            = ResetRedirect.failure "token_already_used") :=
  ⟨rfl, rfl,
    reset_token_single_use (fun _ => some "e@x.co") (fun s => s)
      (fun _ => true) [] "tok" "secret1" "e@x.co" rfl rfl⟩

